import Mathlib

/-!
Verification development for the `math_olympic_question_search` repository.

The Python source is shallowly embedded: strings are modelled as Lean
`String` / `List Char`, Python dicts as association lists with
insert-or-overwrite semantics, fallible code as `Option` / `Except`, and
the network / OCR collaborators as explicit function parameters
(capabilities).  Definitions are translated from the source files
`backend/tagging/tagger.py`, `backend/scraper/gauss_scraper.py`,
`backend/scraper/models.py` and `backend/api/main.py`.
-/

namespace MOQS

/-! ## Python-style string and dict primitives -/

/-- ASCII lower-casing of a single character (model of `str.lower` on the
inputs used here). -/
def asciiLower (c : Char) : Char :=
  if 'A' ≤ c ∧ c ≤ 'Z' then Char.ofNat (c.toNat + 32) else c

/-- Characters Python treats as whitespace (`str.strip`, `re` `\s`). -/
def pyIsSpace (c : Char) : Bool :=
  let n := c.toNat
  (9 ≤ n && n ≤ 13) || n == 32 || (28 ≤ n && n ≤ 31) || n == 0x85 || n == 0xa0 ||
  n == 0x1680 || (0x2000 ≤ n && n ≤ 0x200a) || n == 0x2028 || n == 0x2029 ||
  n == 0x202f || n == 0x205f || n == 0x3000

/-- Does the list start with the given pattern? -/
def startsWithL : List Char → List Char → Bool
  | _, [] => true
  | [], _ :: _ => false
  | h :: hs, n :: ns => h == n && startsWithL hs ns

/-- Python `needle in hay` substring test. -/
def containsSub (hay needle : List Char) : Bool :=
  match hay with
  | [] => needle.isEmpty
  | _ :: rest => startsWithL hay needle || containsSub rest needle

/-- Index of the first occurrence of `needle` in `hay` (Python `str.find`
restricted to found/not-found). -/
def firstOccIdx (hay needle : List Char) : Option Nat :=
  match hay with
  | [] => if needle.isEmpty then some 0 else none
  | _ :: rest =>
    if startsWithL hay needle then some 0
    else (firstOccIdx rest needle).map (· + 1)

/-- Remove trailing characters satisfying `p`. -/
def dropTrail (p : Char → Bool) : List Char → List Char
  | [] => []
  | c :: rest =>
    let r := dropTrail p rest
    if r.isEmpty then (if p c then [] else [c]) else c :: r

/-- Strip characters satisfying `p` from both ends (Python `str.strip`). -/
def stripBoth (p : Char → Bool) (l : List Char) : List Char :=
  dropTrail p (l.dropWhile p)

/-- Python `str.strip()` (whitespace). -/
def pyStrip (s : String) : String := ⟨stripBoth pyIsSpace s.data⟩

/-- Helper for `collapseWs`: `inRun` records whether the previous character
was part of a whitespace run already replaced by a single space. -/
def collapseWsAux : Bool → List Char → List Char
  | _, [] => []
  | inRun, c :: rest =>
    if pyIsSpace c then
      if inRun then collapseWsAux true rest else ' ' :: collapseWsAux true rest
    else c :: collapseWsAux false rest

/-- `re.sub(r"\s+", " ", text)`: collapse every whitespace run to one space. -/
def collapseWs (l : List Char) : List Char := collapseWsAux false l

/-- First-match lookup in an association list. -/
def dlook {α β : Type} [DecidableEq α] (k : α) : List (α × β) → Option β
  | [] => none
  | (k', v) :: rest => if k' = k then some v else dlook k rest

/-- Python dict assignment `d[k] = v`: overwrite in place if the key exists
(keeping its position), otherwise append. -/
def pdInsert {α β : Type} [DecidableEq α] (d : List (α × β)) (k : α) (v : β) :
    List (α × β) :=
  if (dlook k d).isSome then d.map (fun p => if p.1 = k then (k, v) else p)
  else d ++ [(k, v)]

/-- Python dict built from a list of key/value pairs (later keys overwrite). -/
def pdOfList {α β : Type} [DecidableEq α] (l : List (α × β)) : List (α × β) :=
  l.foldl (fun d p => pdInsert d p.1 p.2) []

/-- Python `sep.join(parts)`. -/
def sjoin (sep : String) : List String → String
  | [] => ""
  | [s] => s
  | s :: rest => s ++ sep ++ sjoin sep rest

/-! ## Tag vocabulary and resolver (`backend/tagging/tagger.py`) -/

/-- `TAG_WHITELIST`: the categorized controlled vocabulary. -/
def TAG_WHITELIST : List (String × List String) :=
  [("Number Theory",
    ["divisibility", "primes", "factors", "gcd-lcm", "remainders",
     "exponents", "powers-and-patterns", "digits", "parity", "modular-arithmetic"]),
   ("Arithmetic & Algebra",
    ["fractions", "ratios", "percentages", "expressions", "equations",
     "substitution", "patterns", "sequences", "inequalities", "polynomials",
     "multiplication", "division", "linear-equations"]),
   ("Geometry",
    ["triangles", "angles", "similarity", "circles", "coordinates",
     "distance", "area", "perimeter", "3d-geometry", "transformations",
     "reflections"]),
   ("Combinatorics & Probability",
    ["counting", "arrangements", "casework", "probability", "paths"]),
   ("Word Problems & Applications",
    ["rates", "averages", "money", "tables-and-graphs", "time", "calendar",
     "bar-graphs"]),
   ("Statistics",
    ["mean", "median", "mode", "statistics"]),
   ("Problem-Solving Strategies",
    ["logic", "working-backwards", "guess-check", "symmetry", "invariants", "extremal"])]

/-- `ALL_TAGS`: the flattened canonical vocabulary. -/
def ALL_TAGS : List String := (TAG_WHITELIST.map Prod.snd).flatten

/-- Is this character kept verbatim by `_normalize_tag` (i.e. in `[a-z0-9]`)? -/
def isTagChar (c : Char) : Bool :=
  ('a' ≤ c && c ≤ 'z') || ('0' ≤ c && c ≤ '9')

/-- Helper for `hyphenRuns`: `inRun` records whether the previous character
was part of a non-alphanumeric run already replaced by a single hyphen. -/
def hyphenRunsAux : Bool → List Char → List Char
  | _, [] => []
  | inRun, c :: rest =>
    if isTagChar c then c :: hyphenRunsAux false rest
    else if inRun then hyphenRunsAux true rest
    else '-' :: hyphenRunsAux true rest

/-- `re.sub(r"[^a-z0-9]+", "-", s)`: replace every run of characters outside
`[a-z0-9]` by a single hyphen. -/
def hyphenRuns (l : List Char) : List Char := hyphenRunsAux false l

/-- `_normalize_tag`: lower-case, hyphenate non-alphanumeric runs, strip
leading/trailing hyphens. -/
def normalize_tag (tag : String) : String :=
  ⟨stripBoth (· == '-') (hyphenRuns (tag.data.map asciiLower))⟩

/-- `NORMALIZED_TAGS = {_normalize_tag(tag): tag for tag in ALL_TAGS}`. -/
def NORMALIZED_TAGS : List (String × String) :=
  pdOfList (ALL_TAGS.map (fun t => (normalize_tag t, t)))

/-- `TAG_ALIASES` (tagger module). -/
def TAG_ALIASES : List (String × String) :=
  [("percent", "percentages"),
   ("percentage", "percentages"),
   ("probabilities", "probability"),
   ("geometry", "angles"),
   ("algebra", "expressions"),
   ("number-theory", "divisibility"),
   ("tables-and-graph", "tables-and-graphs"),
   ("bar-graph", "bar-graphs"),
   ("bar-chart", "bar-graphs"),
   ("graph", "bar-graphs"),
   ("translate", "coordinates"),
   ("translation", "coordinates"),
   ("reflections", "reflections"),
   ("reflect", "reflections"),
   ("day-of-week", "calendar"),
   ("calendar-problem", "calendar"),
   ("die", "probability"),
   ("dice", "probability")]

/-- `_resolve_tag`: map a free-text candidate to a canonical tag or `none`. -/
def resolve_tag (tag : String) : Option String :=
  let norm0 := normalize_tag tag
  let norm := match dlook norm0 TAG_ALIASES with
    | some al => normalize_tag al
    | none => norm0
  match dlook norm NORMALIZED_TAGS with
  | some t => some t
  | none =>
    match (if norm.data.getLast? = some 's' then
             dlook ⟨norm.data.dropLast⟩ NORMALIZED_TAGS
           else none) with
    | some t => some t
    | none => dlook (norm ++ "s") NORMALIZED_TAGS

/-- `_extract_tags_from_text`: every canonical tag whose normalized form is a
substring of the normalized text, in vocabulary iteration order, de-duplicated. -/
def extract_tags_from_text (text : String) : List String :=
  let normalizedText := normalize_tag text
  NORMALIZED_TAGS.foldl
    (fun found p =>
      if p.1 ≠ "" ∧ containsSub normalizedText.data p.1.data ∧ p.2 ∉ found then
        found ++ [p.2]
      else found)
    []

/-! ## Keyword heuristics (`_heuristic_tags_for_problem`) -/

/-- The statement/choices fields of a problem dict used by the tagger. -/
structure PyProblem where
  statement : String
  choices : List String

/-- The body of the local `add` closure in `_heuristic_tags_for_problem`:
append the tag if it is whitelisted and not already present. -/
def addTag (tags : List String) (t : String) : List String :=
  if t ∈ ALL_TAGS ∧ t ∉ tags then tags ++ [t] else tags

/-- The sequence of `if <substring tests>: add(<tags>)` rules of
`_heuristic_tags_for_problem`, one entry per `if` statement, in order. -/
def heuristicChecks (text : String) : List (Bool × List String) :=
  let has := fun (s : String) => containsSub text.data s.data
  [(has "graph" || has "bar chart" || has "bar graph", ["bar-graphs"]),
   (has "day of the week" || has "monday" || has "tuesday" || has "wednesday",
    ["calendar"]),
   (has "coordinates" || (has "(" && has "," && has ")"), ["coordinates"]),
   (has "reflected in the x-axis" || has "reflected in the y-axis" ||
      has "reflection", ["reflections"]),
   (has "for every" || has "per bowl" || has "per dog" || has "per student",
    ["ratios"]),
   (has "die" || has "dice" || has "rolled", ["probability"]),
   (has "mode" || has "median" || has "mean", ["statistics"]),
   (has "/" && has "=", ["fractions", "equations"]),
   (has "prime" || has "odd number" || has "even number" || has "composite" ||
      has "perfect square", ["number-theory"]),
   (has "same number of" || has "each child received the same" ||
      has "equally among", ["division", "fractions"]),
   (has "checklist" || has "check off", ["logic"])]

/-- `_heuristic_tags_for_problem`: keyword rules over the lower-cased
statement-plus-choices text. -/
def heuristic_tags_for_problem (p : PyProblem) : List String :=
  let text : String := ⟨(p.statement ++ " " ++ sjoin " " p.choices).data.map asciiLower⟩
  (heuristicChecks text).foldl
    (fun tags c => if c.1 then c.2.foldl addTag tags else tags) []

/-! ## JSON values and `json.loads` (Python standard library, as called by
`tag_problem`) -/

/-- JSON values.  Number literals keep their source text; their numeric value
is never consumed by the code under verification. -/
inductive Jv where
  | jnull
  | jbool (b : Bool)
  | jnum (lit : String)
  | jstr (s : String)
  | jarr (elems : List Jv)
  | jobj (fields : List (String × Jv))

/-- JSON inter-token whitespace (space, tab, newline, carriage return). -/
def jIsWs (c : Char) : Bool := c == ' ' || c == '\t' || c == '\n' || c == '\r'

def jskipWs (l : List Char) : List Char := l.dropWhile jIsWs

def isJDigit (c : Char) : Bool := '0' ≤ c && c ≤ '9'

def hexVal (c : Char) : Option Nat :=
  if '0' ≤ c ∧ c ≤ '9' then some (c.toNat - '0'.toNat)
  else if 'a' ≤ c ∧ c ≤ 'f' then some (c.toNat - 'a'.toNat + 10)
  else if 'A' ≤ c ∧ c ≤ 'F' then some (c.toNat - 'A'.toNat + 10)
  else none

/-- Parse exactly four hex digits. -/
def jparseHex4 : List Char → Option (Nat × List Char)
  | c1 :: c2 :: c3 :: c4 :: rest =>
    match hexVal c1, hexVal c2, hexVal c3, hexVal c4 with
    | some h1, some h2, some h3, some h4 =>
      some (((h1 * 16 + h2) * 16 + h3) * 16 + h4, rest)
    | _, _, _, _ => none
  | _ => none

/-- Turn a scalar value into a `Char`; lone surrogates (which Python keeps as
surrogate code points, unrepresentable in `Char`) become U+FFFD. -/
def codeToChar (n : Nat) : Char :=
  if n < 0xd800 ∨ (0xdfff < n ∧ n < 0x110000) then Char.ofNat n else '�'

/-- Parse the body of a JSON string literal (after the opening quote), with
strict control-character rejection and `\u` escape handling, as `json.loads`
does by default. -/
def jparseStringBody : Nat → List Char → Option (List Char × List Char)
  | 0, _ => none
  | _ + 1, [] => none
  | fuel + 1, c :: rest =>
    if c = '"' then some ([], rest)
    else if c = '\\' then
      match rest with
      | 'u' :: r =>
        match jparseHex4 r with
        | some (n, r2) =>
          if 0xd800 ≤ n ∧ n ≤ 0xdbff then
            match r2 with
            | '\\' :: 'u' :: r3 =>
              match jparseHex4 r3 with
              | some (m, r4) =>
                if 0xdc00 ≤ m ∧ m ≤ 0xdfff then
                  (jparseStringBody fuel r4).map (fun p =>
                    (codeToChar (0x10000 + (n - 0xd800) * 0x400 + (m - 0xdc00)) :: p.1, p.2))
                else
                  (jparseStringBody fuel r2).map (fun p => (codeToChar n :: p.1, p.2))
              | none => (jparseStringBody fuel r2).map (fun p => (codeToChar n :: p.1, p.2))
            | _ => (jparseStringBody fuel r2).map (fun p => (codeToChar n :: p.1, p.2))
          else (jparseStringBody fuel r2).map (fun p => (codeToChar n :: p.1, p.2))
        | none => none
      | e :: r =>
        let esc : Option Char :=
          if e = '"' then some '"'
          else if e = '\\' then some '\\'
          else if e = '/' then some '/'
          else if e = 'b' then some (Char.ofNat 8)
          else if e = 'f' then some (Char.ofNat 12)
          else if e = 'n' then some '\n'
          else if e = 'r' then some '\r'
          else if e = 't' then some '\t'
          else none
        match esc with
        | some ec => (jparseStringBody fuel r).map (fun p => (ec :: p.1, p.2))
        | none => none
      | [] => none
    else if c.toNat < 0x20 then none
    else (jparseStringBody fuel rest).map (fun p => (c :: p.1, p.2))

/-- Parse a JSON number literal (`-?(0|[1-9]\d*)(\.\d+)?([eE][+-]?\d+)?`),
returning its source text. -/
def jparseNumber (l : List Char) : Option (List Char × List Char) :=
  let (sign, l1) : List Char × List Char :=
    match l with
    | '-' :: r => (['-'], r)
    | _ => ([], l)
  match l1 with
  | '0' :: r => some (sign ++ ['0'], r)
  | c :: _ =>
    if isJDigit c then some (sign ++ l1.takeWhile isJDigit, l1.dropWhile isJDigit)
    else none
  | [] => none

/-- Parse the optional fraction part. -/
def jparseFrac (l : List Char) : Option (List Char × List Char) :=
  match l with
  | '.' :: r =>
    let ds := r.takeWhile isJDigit
    if ds.isEmpty then none else some ('.' :: ds, r.dropWhile isJDigit)
  | _ => some ([], l)

/-- Parse the optional exponent part. -/
def jparseExp (l : List Char) : Option (List Char × List Char) :=
  match l with
  | e :: r =>
    if e = 'e' ∨ e = 'E' then
      let (sg, r1) : List Char × List Char :=
        match r with
        | '+' :: r' => (['+'], r')
        | '-' :: r' => (['-'], r')
        | _ => ([], r)
      let ds := r1.takeWhile isJDigit
      if ds.isEmpty then none else some (e :: sg ++ ds, r1.dropWhile isJDigit)
    else some ([], l)
  | [] => some ([], l)

mutual

/-- Parse one JSON value at the head of the input. -/
def jparseVal : Nat → List Char → Option (Jv × List Char)
  | 0, _ => none
  | fuel + 1, l =>
    match l with
    | 'n' :: 'u' :: 'l' :: 'l' :: r => some (.jnull, r)
    | 't' :: 'r' :: 'u' :: 'e' :: r => some (.jbool true, r)
    | 'f' :: 'a' :: 'l' :: 's' :: 'e' :: r => some (.jbool false, r)
    | 'N' :: 'a' :: 'N' :: r => some (.jnum "NaN", r)
    | 'I' :: 'n' :: 'f' :: 'i' :: 'n' :: 'i' :: 't' :: 'y' :: r =>
      some (.jnum "Infinity", r)
    | '-' :: 'I' :: 'n' :: 'f' :: 'i' :: 'n' :: 'i' :: 't' :: 'y' :: r =>
      some (.jnum "-Infinity", r)
    | '"' :: r => (jparseStringBody (r.length + 1) r).map (fun p => (.jstr ⟨p.1⟩, p.2))
    | '[' :: r =>
      match jskipWs r with
      | ']' :: r2 => some (.jarr [], r2)
      | r2 => jparseArrItems fuel r2 []
    | '{' :: r =>
      match jskipWs r with
      | '}' :: r2 => some (.jobj [], r2)
      | r2 => jparseObjItems fuel r2 []
    | _ =>
      match jparseNumber l with
      | some (intPart, r1) =>
        match jparseFrac r1 with
        | some (fracPart, r2) =>
          match jparseExp r2 with
          | some (expPart, r3) => some (.jnum ⟨intPart ++ fracPart ++ expPart⟩, r3)
          | none => none
        | none => none
      | none => none

/-- Parse the remaining items of a JSON array (first item pending). -/
def jparseArrItems : Nat → List Char → List Jv → Option (Jv × List Char)
  | 0, _, _ => none
  | fuel + 1, l, acc =>
    match jparseVal fuel l with
    | some (v, r) =>
      match jskipWs r with
      | ',' :: r2 => jparseArrItems fuel (jskipWs r2) (acc ++ [v])
      | ']' :: r2 => some (.jarr (acc ++ [v]), r2)
      | _ => none
    | none => none

/-- Parse the remaining members of a JSON object (first member pending).
Duplicate keys overwrite, as in Python's `dict`. -/
def jparseObjItems : Nat → List Char → List (String × Jv) → Option (Jv × List Char)
  | 0, _, _ => none
  | fuel + 1, l, acc =>
    match l with
    | '"' :: r =>
      match jparseStringBody (r.length + 1) r with
      | some (k, r1) =>
        match jskipWs r1 with
        | ':' :: r2 =>
          match jparseVal fuel (jskipWs r2) with
          | some (v, r3) =>
            match jskipWs r3 with
            | ',' :: r4 => jparseObjItems fuel (jskipWs r4) (pdInsert acc ⟨k⟩ v)
            | '}' :: r4 => some (.jobj (pdInsert acc ⟨k⟩ v), r4)
            | _ => none
          | none => none
        | _ => none
      | none => none
    | _ => none

end

/-- `json.loads`: parse a complete JSON document, rejecting trailing data. -/
def jloads (s : String) : Option Jv :=
  match jparseVal (2 * s.data.length + 4) (jskipWs s.data) with
  | some (v, rest) => if (jskipWs rest).isEmpty then some v else none
  | none => none

/-! ## `tag_problem` (`backend/tagging/tagger.py`), pure response-processing
core.  The HTTP call to the classifier backend is the external capability;
its `response`/`thinking` fields are this function's inputs. -/

/-- Index of the last occurrence of character `c` (Python `str.rfind`). -/
def lastOccIdxChar (l : List Char) (c : Char) : Option Nat :=
  (firstOccIdx l.reverse [c]).map (fun i => l.length - 1 - i)

/-- Python `s.split(sep)` for a non-empty separator (fuelled; the fuel is
always sufficient at `length + 1`). -/
def splitOnSubFuel (sep : List Char) : Nat → List Char → List (List Char)
  | 0, l => [l]
  | fuel + 1, l =>
    match firstOccIdx l sep with
    | some i => l.take i :: splitOnSubFuel sep fuel (l.drop (i + sep.length))
    | none => [l]

/-- Python `s.split(sep)`. -/
def pySplit (s sep : String) : List String :=
  (splitOnSubFuel sep.data (s.data.length + 1) s.data).map (fun l => ⟨l⟩)

/-- The markdown code-fence unwrapping of `tag_problem`:
`response_text.split("```json")[1].split("```")[0].strip()` when a fence
marker is present. -/
def stripFences (responseText : String) : String :=
  if containsSub responseText.data "```json".data then
    pyStrip (((pySplit ((pySplit responseText "```json").getD 1 "") "```").getD 0 ""))
  else if containsSub responseText.data "```".data then
    pyStrip (((pySplit ((pySplit responseText "```").getD 1 "") "```").getD 0 ""))
  else responseText

/-- Python iteration over a JSON value (`for t in tags`): lists yield their
elements, strings their characters, dicts their keys; other values raise
(`none`). -/
def pyIter : Jv → Option (List Jv)
  | .jarr l => some l
  | .jstr s => some (s.data.map (fun c => .jstr ⟨[c]⟩))
  | .jobj kvs => some (kvs.map (fun kv => .jstr kv.1))
  | _ => none

/-- One iteration of the `for t in tags` filtering loop of `tag_problem`:
resolve the candidate and keep truthy, unseen results.  A non-string
candidate raises inside `_resolve_tag` (`none`). -/
def resolveStep (acc : Option (List String)) (e : Jv) : Option (List String) :=
  match acc with
  | none => none
  | some valid =>
    match e with
    | .jstr s =>
      match resolve_tag s with
      | some r => if r ≠ "" ∧ r ∉ valid then some (valid ++ [r]) else some valid
      | none => some valid
    | _ => none

/-- The `for t in tags` filtering loop of `tag_problem`. -/
def resolveLoop (elems : List Jv) : Option (List String) :=
  elems.foldl resolveStep (some [])

/-- Step 1 of `tag_problem` after fence-stripping: find the `{`..`}` span,
`json.loads` it, read `data.get("tags", [])` and run the resolver filter.
`Except.error` is the exception path (caught by the surrounding
`except Exception`, which returns `[]` without running the text-scan
fallback); `Except.ok` carries `valid_tags`. -/
def jsonTagsStep (rt : String) : Except Unit (List String) :=
  match firstOccIdx rt.data ['{'], lastOccIdxChar rt.data '}' with
  | some s, some e =>
    if s < e + 1 then
      let jsonStr : List Char := (rt.data.drop s).take (e + 1 - s)
      match jloads ⟨jsonStr⟩ with
      | none => .error ()
      | some data =>
        match data with
        | .jobj fields =>
          match dlook "tags" fields with
          | none => .ok []
          | some tv =>
            match pyIter tv with
            | none => .error ()
            | some elems =>
              match resolveLoop elems with
              | none => .error ()
              | some valid => .ok valid
        | _ => .error ()
    else .ok []
  | _, _ => .ok []

/-- `tag_problem`, given the classifier's `response` and `thinking` fields:
strip/unfence the response, try the structured JSON step, then fall back to
text-scanning `response_text or reasoning_text`.  Any exception inside the
`try` yields `[]`. -/
def tag_problem (response reasoning : String) : List String :=
  let responseText := stripFences (pyStrip response)
  match jsonTagsStep responseText with
  | .error _ => []
  | .ok valid =>
    if valid ≠ [] then valid
    else
      let fallbackText := if responseText ≠ "" then responseText else reasoning
      if fallbackText ≠ "" then extract_tags_from_text fallbackText else []

/-- The tag-application step of `tag_all_problems`: use the model tags if
any, otherwise the keyword heuristics. -/
def appliedTagsForProblem (p : PyProblem) (modelTags : List String) : List String :=
  if modelTags = [] then heuristic_tags_for_problem p else modelTags

/-! ## Text normalizer (`GaussScraper._clean_text`) -/

/-- Is `b` a UTF-8 continuation byte? -/
def utf8Cont (b : Nat) : Bool := 0x80 ≤ b && b ≤ 0xbf

/-- Strict UTF-8 decoding of a byte sequence (CPython's `bytes.decode("utf-8")`
with default strict error handling: overlong encodings, surrogates and
out-of-range leads are rejected). -/
def utf8Decode : List Nat → Option (List Char)
  | [] => some []
  | b1 :: rest =>
    if b1 < 0x80 then (utf8Decode rest).map (fun cs => Char.ofNat b1 :: cs)
    else if 0xc2 ≤ b1 ∧ b1 ≤ 0xdf then
      match rest with
      | b2 :: rest2 =>
        if utf8Cont b2 then
          (utf8Decode rest2).map (fun cs =>
            Char.ofNat ((b1 - 0xc0) * 0x40 + (b2 - 0x80)) :: cs)
        else none
      | [] => none
    else if 0xe0 ≤ b1 ∧ b1 ≤ 0xef then
      match rest with
      | b2 :: b3 :: rest3 =>
        let b2ok :=
          if b1 = 0xe0 then 0xa0 ≤ b2 && b2 ≤ 0xbf
          else if b1 = 0xed then 0x80 ≤ b2 && b2 ≤ 0x9f
          else utf8Cont b2
        if b2ok && utf8Cont b3 then
          (utf8Decode rest3).map (fun cs =>
            Char.ofNat (((b1 - 0xe0) * 0x40 + (b2 - 0x80)) * 0x40 + (b3 - 0x80)) :: cs)
        else none
      | _ => none
    else if 0xf0 ≤ b1 ∧ b1 ≤ 0xf4 then
      match rest with
      | b2 :: b3 :: b4 :: rest4 =>
        let b2ok :=
          if b1 = 0xf0 then 0x90 ≤ b2 && b2 ≤ 0xbf
          else if b1 = 0xf4 then 0x80 ≤ b2 && b2 ≤ 0x8f
          else utf8Cont b2
        if b2ok && utf8Cont b3 && utf8Cont b4 then
          (utf8Decode rest4).map (fun cs =>
            Char.ofNat
              ((((b1 - 0xf0) * 0x40 + (b2 - 0x80)) * 0x40 + (b3 - 0x80)) * 0x40
                + (b4 - 0x80)) :: cs)
        else none
      | _ => none
    else none

/-- `_fix_encoding`: `s.encode("latin1").decode("utf-8")`, returning the input
unchanged when either codec raises. -/
def fixEncoding (s : String) : String :=
  if s.data.all (fun c => c.toNat ≤ 0xff) then
    match utf8Decode (s.data.map Char.toNat) with
    | some cs => ⟨cs⟩
    | none => s
  else s

/-- The lower-cased literal of `re.sub(r"Hide/Reveal Description.*", ...)`. -/
def HIDE_PHRASE : List Char := "hide/reveal description".data

/-- Truncate one line at the first case-insensitive occurrence of the
hide/reveal phrase (`. *` in the pattern consumes to end of line). -/
def cutLine : List Char → List Char
  | [] => []
  | c :: rest =>
    if startsWithL ((c :: rest).map asciiLower) HIDE_PHRASE then []
    else c :: cutLine rest

/-- Split on newline characters (`.` in an unflagged Python regex does not
match `\n`, so the substitution acts per line). -/
def splitLines : List Char → List (List Char)
  | [] => [[]]
  | c :: rest =>
    if c = '\n' then [] :: splitLines rest
    else
      match splitLines rest with
      | l :: ls => (c :: l) :: ls
      | [] => [[c]]

/-- The three-character mojibake sequence `"â\u0080\u0086"` replaced by
`_clean_text` (the latin-1 mis-decoding of U+2006). -/
def MOJIBAKE : List Char := [Char.ofNat 0xe2, Char.ofNat 0x80, Char.ofNat 0x86]

/-- `text.replace("â\u0080\u0086", " ")`: left-to-right, non-overlapping. -/
def replaceMoj : List Char → List Char
  | [] => []
  | [c] => [c]
  | [c, d] => [c, d]
  | c1 :: c2 :: c3 :: rest =>
    if c1 = Char.ofNat 0xe2 ∧ c2 = Char.ofNat 0x80 ∧ c3 = Char.ofNat 0x86 then
      ' ' :: replaceMoj rest
    else c1 :: replaceMoj (c2 :: c3 :: rest)

/-- `_clean_text`: encoding repair, hide/reveal-caption removal, mojibake
replacement, whitespace collapse and strip, in source order. -/
def clean_text (text : String) : String :=
  let t1 := fixEncoding text
  let t2 : List Char := List.intercalate ['\n'] ((splitLines t1.data).map cutLine)
  let t3 := replaceMoj t2
  ⟨stripBoth pyIsSpace (collapseWs t3)⟩

/-! ## HTML documents (the BeautifulSoup tree, as used by the scraper) -/

/-- A parsed HTML node: an element with attributes and children, or text. -/
inductive Node where
  | el (tag : String) (attrs : List (String × String)) (children : List Node)
  | tx (s : String)

def attrGet (n : Node) (key : String) : Option String :=
  match n with
  | .el _ attrs _ => dlook key attrs
  | .tx _ => none

def tagIs (t : String) (n : Node) : Bool :=
  match n with
  | .el tg _ _ => tg == t
  | .tx _ => false

def childrenOf (n : Node) : List Node :=
  match n with
  | .el _ _ cs => cs
  | .tx _ => []

mutual

/-- All nodes strictly within `n`, in document (preorder) order. -/
def nodesWithin : Node → List Node
  | .tx _ => []
  | .el _ _ cs => nodesWithinL cs

def nodesWithinL : List Node → List Node
  | [] => []
  | n :: rest => (n :: nodesWithin n) ++ nodesWithinL rest

end

/-- `n.find_all(t)`: all descendant elements with the given tag name. -/
def findAllTag (t : String) (n : Node) : List Node :=
  (nodesWithin n).filter (tagIs t)

/-- `n.find_all(t, recursive=False)`: direct children with the tag name. -/
def findDirect (t : String) (n : Node) : List Node :=
  (childrenOf n).filter (tagIs t)

/-- `n.find(t)`: the first matching descendant, if any. -/
def findFirstTag (t : String) (n : Node) : Option Node :=
  (findAllTag t n).head?

mutual

/-- All text-node strings within `n`, in document order. -/
def textsOf : Node → List String
  | .tx s => [s]
  | .el _ _ cs => textsOfL cs

def textsOfL : List Node → List String
  | [] => []
  | n :: rest => textsOf n ++ textsOfL rest

end

/-- `n.get_text(separator, strip=True)`: join the stripped, non-empty text
fragments with the separator. -/
def getTextSep (sep : String) (n : Node) : String :=
  sjoin sep (((textsOf n).map pyStrip).filter (fun s => s ≠ ""))

/-- Does this element match `find_all(id=re.compile(r"^longdesc", re.I))`? -/
def isLongdescNode (n : Node) : Bool :=
  match attrGet n "id" with
  | some v => startsWithL (v.data.map asciiLower) "longdesc".data
  | none => false

mutual

/-- The `desc.decompose()` loop: drop every subtree whose root has an `id`
starting with `longdesc`.  (The decomposition mutates the tree in place in
the source, so the subsequent traversal of the `ol` lists sees it.) -/
def decomposeLongdesc : Node → Node
  | .tx s => .tx s
  | .el t a cs => .el t a (decomposeLongdescL cs)

def decomposeLongdescL : List Node → List Node
  | [] => []
  | n :: rest =>
    if isLongdescNode n then decomposeLongdescL rest
    else decomposeLongdesc n :: decomposeLongdescL rest

end

/-! ## Document segmenter (`GaussScraper._extract_problem_sections`) -/

/-- One per-problem segment: statement, choices and inline image payloads. -/
structure Seg where
  statement : String
  choices : List String
  images : List String
deriving DecidableEq

/-- Does this `ol` element carry `type="1"`? -/
def isOlType1 (n : Node) : Bool :=
  tagIs "ol" n && (attrGet n "type" == some "1")

/-- `_extract_image_as_base64`: a `data:image` source is passed through;
an absent source yields `None`; anything else is resolved against the base
URL and fetched over the network — modelled by the `fetchImg` capability. -/
def extract_image_as_base64 (fetchImg : String → String → Option String)
    (baseUrl : String) (img : Node) : Option String :=
  let src := (attrGet img "src").getD ""
  if startsWithL src.data "data:image".data then some src
  else if src = "" then none
  else fetchImg baseUrl src

/-- Processing of one top-level `li` item: collect images, prefer direct
paragraphs for the statement, take the last nested list's direct items as
choices (with OCR fallback for image-only choices, via the `ocrImg`
capability), then truncate/pad the choices to exactly 5. -/
def processItem (fetchImg : String → String → Option String)
    (ocrImg : Node → String) (baseUrl : String) (item : Node) : Seg :=
  let images := (findAllTag "img" item).foldl
    (fun acc imgTag =>
      match extract_image_as_base64 fetchImg baseUrl imgTag with
      | some imgData => if imgData ≠ "" then acc ++ [imgData] else acc
      | none => acc) []
  let directParas := findDirect "p" item
  let statementRaw :=
    if !directParas.isEmpty then
      sjoin " " (directParas.map (fun p => clean_text (getTextSep " " p)))
    else clean_text (getTextSep " " item)
  let nestedOls := findAllTag "ol" item
  let choiceTags0 :=
    match nestedOls.getLast? with
    | some ol => findDirect "li" ol
    | none => []
  let choiceTags := if choiceTags0.isEmpty then findAllTag "li" item else choiceTags0
  let choices := choiceTags.map (fun li =>
    let txt := clean_text (getTextSep " " li)
    if txt = "" then
      match findFirstTag "img" li with
      | some img => ocrImg img
      | none => txt
    else txt)
  let choices := choices.take 5
  let choices := choices ++ List.replicate (5 - choices.length) ""
  { statement := statementRaw, choices := choices, images := images }

/-- One iteration of the segmenter's item loop: store the processed item
under the current problem number and advance the counter. -/
def segStep (fetchImg : String → String → Option String)
    (ocrImg : Node → String) (baseUrl : String)
    (st : Nat × List (Nat × Seg)) (item : Node) : Nat × List (Nat × Seg) :=
  (st.1 + 1, pdInsert st.2 st.1 (processItem fetchImg ocrImg baseUrl item))

/-- `_extract_problem_sections`: walk the top-level items of every
`<ol type="1">` list, numbering them consecutively from 1, and build the
`problem_number -> (statement, choices, images)` dict. -/
def extract_problem_sections (fetchImg : String → String → Option String)
    (ocrImg : Node → String) (content : Node) (baseUrl : String) :
    List (Nat × Seg) :=
  let contentD := decomposeLongdesc content
  let olLists := (nodesWithin contentD).filter isOlType1
  (olLists.foldl
    (fun (st : Nat × List (Nat × Seg)) ol =>
      (findDirect "li" ol).foldl (segStep fetchImg ocrImg baseUrl) st)
    (1, [])).2

/-- The total number of top-level items over all `<ol type="1">` lists of the
(decomposed) document — the number of segments the segmenter emits. -/
def totalTopItems (content : Node) : Nat :=
  (((nodesWithin (decomposeLongdesc content)).filter isOlType1).map
    (fun ol => (findDirect "li" ol).length)).sum

/-! ## Problem records (`backend/scraper/models.py`) and the assembler -/

/-- The pydantic `Problem` model.  Its declared fields are exactly
`id, source, grade, year, problem_number, statement, choices, answer,
solution, tags, url` — there is no `images` field. -/
structure Problem where
  id : String
  source : String
  grade : Int
  year : Int
  problem_number : Nat
  statement : String
  choices : List String
  answer : Option String
  solution : Option String
  tags : List String
  url : String
deriving DecidableEq

/-- `Problem.create_id`. -/
def Problem.create_id (year grade : Int) (problem_number : Nat) : String :=
  "gauss-" ++ toString year ++ "-g" ++ toString grade ++ "-" ++ toString problem_number

set_option linter.unusedVariables false in
/-- The `Problem(...)` constructor call of `_parse_contest_page`.  The call
passes `images=images`, but the model declares no such field and pydantic's
default `extra="ignore"` configuration silently discards unknown keyword
arguments, so the collected images are dropped. -/
def problemNew (id source : String) (grade year : Int) (problem_number : Nat)
    (statement : String) (choices : List String) (images : List String)
    (url : String) : Problem :=
  { id := id, source := source, grade := grade, year := year,
    problem_number := problem_number, statement := statement,
    choices := choices, answer := none, solution := none, tags := [],
    url := url }

/-- `CONTEST_URL.format(year=year, grade=grade)`. -/
def CONTEST_URL (year grade : Int) : String :=
  "https://cemc.uwaterloo.ca/sites/default/files/documents/" ++ toString year ++
    "/" ++ toString year ++ "Gauss" ++ toString grade ++ "Contest.html"

/-- Stable insertion of a problem into a list sorted by `problem_number`. -/
def insertByNumber (p : Problem) : List Problem → List Problem
  | [] => [p]
  | q :: rest =>
    if p.problem_number ≤ q.problem_number then p :: q :: rest
    else q :: insertByNumber p rest

/-- `sorted(problems, key=lambda p: p.problem_number)` (stable). -/
def sortByNumber (l : List Problem) : List Problem := l.foldr insertByNumber []

/-- `_parse_contest_page`: segment the content and assemble `Problem`
records, sorted by problem number.  `content` is the document body. -/
def parse_contest_page (fetchImg : String → String → Option String)
    (ocrImg : Node → String) (content : Node) (year grade : Int) :
    List Problem :=
  let baseUrl := CONTEST_URL year grade
  let problemSections := extract_problem_sections fetchImg ocrImg content baseUrl
  sortByNumber (problemSections.map (fun s =>
    problemNew (Problem.create_id year grade s.1) "gauss" grade year s.1
      s.2.statement s.2.choices s.2.images baseUrl))

/-- `Problem.model_dump()`: the serialized record, keys in field
declaration order. -/
def model_dump (p : Problem) : List (String × Jv) :=
  [("id", .jstr p.id),
   ("source", .jstr p.source),
   ("grade", .jnum (toString p.grade)),
   ("year", .jnum (toString p.year)),
   ("problem_number", .jnum (toString p.problem_number)),
   ("statement", .jstr p.statement),
   ("choices", .jarr (p.choices.map .jstr)),
   ("answer", match p.answer with | some a => .jstr a | none => .jnull),
   ("solution", match p.solution with | some s => .jstr s | none => .jnull),
   ("tags", .jarr (p.tags.map .jstr)),
   ("url", .jstr p.url)]

/-- `save_problems`: the JSON array written to `problems.json` — one
`model_dump` per problem. -/
def save_problems (problems : List Problem) : List (List (String × Jv)) :=
  problems.map model_dump

/-! ## Answer-key matcher (`GaussScraper._parse_solution_page`) -/

def isDigitC (c : Char) : Bool := '0' ≤ c && c ≤ '9'

def digitVal (c : Char) : Nat := c.toNat - '0'.toNat

/-- Continue a match of `(\d{1,2})\.\s*([A-E])(?:\s|$|\n)` after the digits:
a dot, greedy whitespace, a letter A–E, then one whitespace character or the
end of the text. -/
def matchTail (num : Nat) (rest : List Char) : Option (Nat × Char × List Char) :=
  match rest with
  | '.' :: r1 =>
    let r2 := r1.dropWhile pyIsSpace
    match r2 with
    | c :: r3 =>
      if 'A' ≤ c ∧ c ≤ 'E' then
        match r3 with
        | [] => some (num, c, [])
        | w :: r4 => if pyIsSpace w then some (num, c, r4) else none
      else none
    | [] => none
  | _ => none

/-- Try to match the answer pattern at the start of the text, preferring two
digits (greedy `\d{1,2}`), backtracking to one. -/
def matchAnswerAt : List Char → Option (Nat × Char × List Char)
  | [] => none
  | [c1] => if isDigitC c1 then matchTail (digitVal c1) [] else none
  | c1 :: c2 :: rest =>
    if isDigitC c1 then
      if isDigitC c2 then
        match matchTail (digitVal c1 * 10 + digitVal c2) rest with
        | some m => some m
        | none => matchTail (digitVal c1) (c2 :: rest)
      else matchTail (digitVal c1) (c2 :: rest)
    else none

/-- Non-overlapping left-to-right scan (`re.findall`); the fuel is always
sufficient at `length + 1` since every step consumes at least one character. -/
def scanAnswers : Nat → List Char → List (Nat × Char)
  | 0, _ => []
  | _ + 1, [] => []
  | fuel + 1, c :: rest =>
    match matchAnswerAt (c :: rest) with
    | some (n, a, after) => (n, a) :: scanAnswers fuel after
    | none => scanAnswers fuel rest

/-- `answer_pattern.findall(text)`. -/
def findAnswerMatches (text : String) : List (Nat × Char) :=
  scanAnswers (text.data.length + 1) text.data

/-- The match-processing loop of `_parse_solution_page`: keep numbers in
`[1, 25]`, flip the grade cursor from 7 to 8 when problem 1 recurs after
`(7, 1)` was recorded, store `(answer, "")` under `(grade, number)`. -/
def solGo : Nat → List ((Nat × Nat) × (Char × String)) → List (Nat × Char) →
    List ((Nat × Nat) × (Char × String))
  | _, acc, [] => acc
  | grade, acc, (num, ans) :: rest =>
    if 1 ≤ num ∧ num ≤ 25 then
      let grade' := if num = 1 ∧ (dlook (7, 1) acc).isSome then 8 else grade
      solGo grade' (pdInsert acc (grade', num) (ans, "")) rest
    else solGo grade acc rest

/-- `_parse_solution_page` on the flattened text of the document. -/
def parse_solution_text (text : String) : List ((Nat × Nat) × (Char × String)) :=
  solGo 7 [] (findAnswerMatches text)

/-- `_parse_solution_page`: flatten the body with newline separators and
process the answer pattern matches. -/
def parse_solution_page (content : Node) : List ((Nat × Nat) × (Char × String)) :=
  parse_solution_text (getTextSep "\n" content)

/-! ## Retrieval surface (`backend/api/main.py`, `get_problems`) -/

/-- A stored problem record as loaded from `problems.json`. -/
structure ApiProblem where
  id : String
  source : String
  grade : Int
  year : Int
  problem_number : Int
  statement : String
  choices : List String
  tags : List String
  url : String
  answer : Option String
  solution : Option String
deriving DecidableEq

/-- The list-view response model (`answer`/`solution` excluded; `images`
defaults to `[]` and is not populated by `get_problems`). -/
structure ProblemResponse where
  id : String
  source : String
  grade : Int
  year : Int
  problem_number : Int
  statement : String
  choices : List String
  tags : List String
  url : String
  images : List String
deriving DecidableEq

/-- The `ProblemResponse(...)` construction in `get_problems`. -/
def toListResponse (p : ApiProblem) : ProblemResponse :=
  { id := p.id, source := p.source, grade := p.grade, year := p.year,
    problem_number := p.problem_number, statement := p.statement,
    choices := p.choices, tags := p.tags, url := p.url, images := [] }

/-- The tag list computed from the `tags` query parameter:
`[t.strip() for t in tags.split(",") if t.strip()]`. -/
def parseTagsParam (s : String) : List String :=
  ((pySplit s ",").map pyStrip).filter (fun t => t ≠ "")

/-- `get_problems`: filter the store by the comma-separated `tags` parameter
(ANY-of semantics), then by `grade`, then by `year`; project to list-view
records. -/
def get_problems (db : List ApiProblem) (tags : Option String)
    (grade year : Option Int) : List ProblemResponse :=
  let result : List ApiProblem := db
  let result : List ApiProblem :=
    match tags with
    | some s =>
      if s ≠ "" then
        let tagList := parseTagsParam s
        if tagList ≠ [] then
          result.filter (fun p => tagList.any (fun t => p.tags.contains t))
        else result
      else result
    | none => result
  let result : List ApiProblem :=
    match grade with
    | some g => result.filter (fun p => p.grade == g)
    | none => result
  let result : List ApiProblem :=
    match year with
    | some y => result.filter (fun p => p.year == y)
    | none => result
  result.map toListResponse

/-! ## Spec-side comparison definitions and concrete example inputs -/

/-- A stable insertion into a list sorted by the first component. -/
def insertByIdx (x : Nat × String) : List (Nat × String) → List (Nat × String)
  | [] => [x]
  | y :: rest => if x.1 ≤ y.1 then x :: y :: rest else y :: insertByIdx x rest

/-- Follows the spec's words for the text-scan variant: every canonical tag
whose normalized form appears as a substring of the normalized text,
de-duplicated, "preserving first-occurrence order" — i.e. sorted (stably) by
the position of the tag's first occurrence within the text. -/
def specExtractTagsFirstOccurrence (text : String) : List String :=
  let nt := (normalize_tag text).data
  let cands := NORMALIZED_TAGS.filter
    (fun p => !(p.1 == "") && (firstOccIdx nt p.1.data).isSome)
  ((cands.map (fun p => ((firstOccIdx nt p.1.data).getD 0, p.2))).foldr
    insertByIdx []).map Prod.snd

/-- Follows the spec's words for step 2 of the cascade: scan the
classifier's raw response text and its auxiliary reasoning text with the
text-scan variant (the union of both scans, response text first,
de-duplicated). -/
def specScanBothTexts (responseText reasoningText : String) : List String :=
  extract_tags_from_text responseText ++
    (extract_tags_from_text reasoningText).filter
      (fun t => !(extract_tags_from_text responseText).contains t)

/-- The trivial image-fetch capability (network always unavailable). -/
def fetch0 : String → String → Option String := fun _ _ => none

/-- The trivial OCR capability (always returns empty text). -/
def ocr0 : Node → String := fun _ => ""

/-- A small contest body: one numbered list with two problems, the first
with a paragraph statement and a nested choice list. -/
def docSmall : Node :=
  .el "body" []
    [.el "ol" [("type", "1")]
      [.el "li" []
        [.el "p" [] [.tx "What is 2+2?"],
         .el "ol" [("type", "a")]
           [.el "li" [] [.tx "3"], .el "li" [] [.tx "4"], .el "li" [] [.tx "5"]]],
       .el "li" [] [.tx "Second problem text"]]]

/-- A contest body whose numbered list has 26 top-level items. -/
def doc26 : Node :=
  .el "body" []
    [.el "ol" [("type", "1")] (List.replicate 26 (.el "li" [] [.tx "x"]))]

/-- A contest body with one problem containing an inline (data URI) image. -/
def docImg : Node :=
  .el "body" []
    [.el "ol" [("type", "1")]
      [.el "li" []
        [.el "p" [] [.tx "Look at the picture"],
         .el "img" [("src", "data:image/png;base64,AAAA")] []]]]

/-- A small stored corpus for the retrieval-surface scenarios. -/
def dbSmall : List ApiProblem :=
  [⟨"p1", "gauss", 7, 2025, 1, "s1", [], ["angles"], "u", none, none⟩,
   ⟨"p2", "gauss", 8, 2025, 2, "s2", [], ["percentages"], "u", none, none⟩,
   ⟨"p3", "gauss", 7, 2025, 3, "s3", [], ["logic"], "u", none, none⟩]

/-- A concrete assembled problem record. -/
def probEx : Problem :=
  ⟨"gauss-2025-g7-1", "gauss", 7, 2025, 1, "What is 2+2?",
   ["3", "4", "5", "", ""], none, none, [], "u"⟩

/-- No two adjacent whitespace characters (an invariant of collapsed text). -/
def noTwoSpaces : List Char → Bool
  | c1 :: c2 :: rest => !(pyIsSpace c1 && pyIsSpace c2) && noTwoSpaces (c2 :: rest)
  | _ => true

/-- The head, if any, is not whitespace. -/
def headNotWs : List Char → Bool
  | [] => true
  | c :: _ => !pyIsSpace c

/-! # Theorems -/

set_option maxRecDepth 200000

/-! ## Shared helper lemmas -/

lemma dlook_mem {α β : Type} [DecidableEq α] {k : α} {v : β} :
    ∀ {d : List (α × β)}, dlook k d = some v → (k, v) ∈ d := by
  intro d
  induction d with
  | nil => intro h; simp [dlook] at h
  | cons p rest ih =>
    intro h
    rw [dlook] at h
    split at h
    · rename_i heq
      obtain ⟨rfl⟩ := h
      simp [← heq]
    · exact List.mem_cons_of_mem _ (ih h)

lemma pdInsert_mem {α β : Type} [DecidableEq α] {d : List (α × β)} {k : α}
    {v : β} {x : α × β} (h : x ∈ pdInsert d k v) : x ∈ d ∨ x = (k, v) := by
  unfold pdInsert at h
  split at h
  · rcases List.mem_map.mp h with ⟨y, hy, hxy⟩
    by_cases hk : y.1 = k
    · rw [if_pos hk] at hxy
      exact Or.inr hxy.symm
    · rw [if_neg hk] at hxy
      exact Or.inl (hxy ▸ hy)
  · rcases List.mem_append.mp h with h' | h'
    · exact Or.inl h'
    · right; simpa using h'

/-- Every value stored in `NORMALIZED_TAGS` is a canonical tag. -/
lemma normalizedTags_snd_mem : ∀ p ∈ NORMALIZED_TAGS, p.2 ∈ ALL_TAGS := by decide

/-- `_resolve_tag` only ever returns members of the canonical vocabulary. -/
lemma resolve_tag_mem {s t : String} (h : resolve_tag s = some t) :
    t ∈ ALL_TAGS := by
  unfold resolve_tag at h
  dsimp only at h
  generalize (match dlook (normalize_tag s) TAG_ALIASES with
    | some al => normalize_tag al
    | none => normalize_tag s) = norm at h
  rcases hm : dlook norm NORMALIZED_TAGS with _ | u <;> rw [hm] at h
  · rcases hif : (if norm.data.getLast? = some 's' then
        dlook (⟨norm.data.dropLast⟩ : String) NORMALIZED_TAGS
      else none) with _ | u <;> rw [hif] at h
    · exact normalizedTags_snd_mem _ (dlook_mem h)
    · obtain ⟨rfl⟩ := h
      split at hif
      · exact normalizedTags_snd_mem _ (dlook_mem hif)
      · cases hif
  · obtain ⟨rfl⟩ := h
    exact normalizedTags_snd_mem _ (dlook_mem hm)

/-- The text-scan fold only accumulates canonical tags. -/
lemma extract_fold_mem (nt : String) :
    ∀ (d : List (String × String)) (acc : List String),
      (∀ t ∈ acc, t ∈ ALL_TAGS) → (∀ p ∈ d, p.2 ∈ ALL_TAGS) →
      ∀ t ∈ d.foldl
        (fun found p =>
          if p.1 ≠ "" ∧ containsSub nt.data p.1.data ∧ p.2 ∉ found then
            found ++ [p.2]
          else found) acc, t ∈ ALL_TAGS := by
  intro d
  induction d with
  | nil => intro acc hacc _ t ht; exact hacc t ht
  | cons p rest ih =>
    intro acc hacc hd t ht
    rw [List.foldl_cons] at ht
    refine ih _ ?_ (fun q hq => hd q (List.mem_cons_of_mem _ hq)) t ht
    intro u hu
    split at hu
    · rcases List.mem_append.mp hu with h' | h'
      · exact hacc u h'
      · simp at h'; subst h'; exact hd p (List.mem_cons_self _ _)
    · exact hacc u hu

/-- Every tag returned by `_extract_tags_from_text` is canonical. -/
lemma extract_tags_mem {s t : String} (h : t ∈ extract_tags_from_text s) :
    t ∈ ALL_TAGS := by
  unfold extract_tags_from_text at h
  exact extract_fold_mem _ _ _ (by simp) normalizedTags_snd_mem t h

/-- A raised iteration stays raised. -/
lemma resolveStep_fold_none : ∀ (elems : List Jv),
    elems.foldl resolveStep none = none := by
  intro elems
  induction elems with
  | nil => rfl
  | cons e rest ih => rw [List.foldl_cons]; exact ih

/-- The resolver-filter loop of `tag_problem` only accumulates canonical
tags. -/
lemma resolveLoopAux_mem :
    ∀ (elems : List Jv) (acc : Option (List String)),
      (∀ l, acc = some l → ∀ t ∈ l, t ∈ ALL_TAGS) →
      ∀ l, elems.foldl resolveStep acc = some l →
      ∀ t ∈ l, t ∈ ALL_TAGS := by
  intro elems
  induction elems with
  | nil => intro acc hacc l hl; exact hacc l hl
  | cons e rest ih =>
    intro acc hacc l hl
    rw [List.foldl_cons] at hl
    refine ih _ ?_ l hl
    intro m hm t ht
    match acc, hacc with
    | none, _ => rw [show resolveStep none e = none from rfl] at hm; cases hm
    | some valid, hacc =>
      have hv : ∀ t ∈ valid, t ∈ ALL_TAGS := hacc valid rfl
      match e with
      | .jnull | .jbool _ | .jnum _ | .jarr _ | .jobj _ => cases hm
      | .jstr s =>
        unfold resolveStep at hm
        dsimp only at hm
        rcases hr : resolve_tag s with _ | r <;> rw [hr] at hm <;>
          dsimp only at hm
        · obtain ⟨rfl⟩ := hm; exact hv t ht
        · split at hm
          · obtain ⟨rfl⟩ := hm
            rcases List.mem_append.mp ht with h' | h'
            · exact hv t h'
            · simp at h'; subst h'; exact resolve_tag_mem hr
          · obtain ⟨rfl⟩ := hm; exact hv t ht

lemma resolveLoop_mem {elems : List Jv} {l : List String}
    (h : resolveLoop elems = some l) : ∀ t ∈ l, t ∈ ALL_TAGS := by
  unfold resolveLoop at h
  exact resolveLoopAux_mem elems (some []) (by simp) l h

/-- Step 1 of `tag_problem` only returns canonical tags. -/
lemma jsonTagsStep_mem {rt : String} {valid : List String}
    (h : jsonTagsStep rt = .ok valid) : ∀ t ∈ valid, t ∈ ALL_TAGS := by
  unfold jsonTagsStep at h
  split at h
  · dsimp only at h
    split at h
    · rcases hj : jloads ⟨(rt.data.drop _).take _⟩ with _ | data <;> rw [hj] at h
      · cases h
      · match data with
        | .jnull | .jbool _ | .jnum _ | .jstr _ | .jarr _ => cases h
        | .jobj fields =>
          dsimp only at h
          rcases ht : dlook "tags" fields with _ | tv <;> rw [ht] at h <;>
            dsimp only at h
          · cases h; simp
          · rcases hi : pyIter tv with _ | elems <;> rw [hi] at h <;>
              dsimp only at h
            · cases h
            · rcases hl : resolveLoop elems with _ | valid2 <;> rw [hl] at h <;>
                dsimp only at h
              · cases h
              · cases h
                exact resolveLoop_mem hl
    · cases h; simp
  · cases h; simp

/-- All of `tag_problem`'s output is canonical. -/
lemma tag_problem_mem {r g t : String} (h : t ∈ tag_problem r g) :
    t ∈ ALL_TAGS := by
  unfold tag_problem at h
  dsimp only at h
  split at h
  · simp at h
  · rename_i valid heq
    split at h
    · exact jsonTagsStep_mem heq t h
    · split at h
      · exact extract_tags_mem h
      · simp only [ne_eq, ite_not, List.mem_ite_nil_left] at h
        exact extract_tags_mem h.2

/-- `addTag` only adds canonical tags. -/
lemma addTag_mem {l : List String} {u t : String} (h : t ∈ addTag l u) :
    t ∈ l ∨ t ∈ ALL_TAGS := by
  unfold addTag at h
  split at h
  · rcases List.mem_append.mp h with h' | h'
    · exact Or.inl h'
    · simp at h'; subst h'; rename_i hc; exact Or.inr hc.1
  · exact Or.inl h

lemma addTag_fold_mem :
    ∀ (ts : List String) (acc : List String),
      (∀ t ∈ acc, t ∈ ALL_TAGS) → ∀ t ∈ ts.foldl addTag acc, t ∈ ALL_TAGS := by
  intro ts
  induction ts with
  | nil => intro acc hacc t ht; exact hacc t ht
  | cons u rest ih =>
    intro acc hacc t ht
    rw [List.foldl_cons] at ht
    refine ih _ ?_ t ht
    intro v hv
    rcases addTag_mem hv with h' | h'
    · exact hacc v h'
    · exact h'

lemma rules_fold_mem :
    ∀ (rules : List (Bool × List String)) (acc : List String),
      (∀ t ∈ acc, t ∈ ALL_TAGS) →
      ∀ t ∈ rules.foldl (fun tags c => if c.1 then c.2.foldl addTag tags else tags) acc,
        t ∈ ALL_TAGS := by
  intro rules
  induction rules with
  | nil => intro acc hacc t ht; exact hacc t ht
  | cons c rest ih =>
    intro acc hacc t ht
    rw [List.foldl_cons] at ht
    refine ih _ ?_ t ht
    intro v hv
    split at hv
    · exact addTag_fold_mem _ _ hacc v hv
    · exact hacc v hv

/-- The keyword heuristics only produce canonical tags. -/
lemma heuristic_tags_mem {p : PyProblem} {t : String}
    (h : t ∈ heuristic_tags_for_problem p) : t ∈ ALL_TAGS := by
  unfold heuristic_tags_for_problem at h
  exact rules_fold_mem _ _ (by simp) t h

/-! ## C2: the vocabulary-membership invariant of tag assignment -/

/-- C2: for every problem processed by the tag-assignment pipeline, every tag
stored in the problem's `tags` list is a member of the flattened canonical
vocabulary `ALL_TAGS`, regardless of which cascade step produced it
(classifier JSON parse, text-scan fallback, or keyword heuristics); no
free-form tag is ever stored. -/
theorem C2_tags_in_vocabulary :
    ∀ (p : PyProblem) (response reasoning tag : String),
      tag ∈ appliedTagsForProblem p (tag_problem response reasoning) →
      tag ∈ ALL_TAGS := by
  intro p r g tag h
  unfold appliedTagsForProblem at h
  split at h
  · exact heuristic_tags_mem h
  · exact tag_problem_mem h

/-- Witness for C2 at a concrete problem and classifier response. -/
theorem C2_tags_in_vocabulary_witness :
    "divisibility" ∈
      appliedTagsForProblem ⟨"Is 6 divisible by 3?", []⟩
        (tag_problem "\x7b\"tags\": [\"Divisibility \"]\x7d" "") ∧
    "divisibility" ∈ ALL_TAGS :=
  ⟨by decide,
   C2_tags_in_vocabulary ⟨"Is 6 divisible by 3?", []⟩
     "\x7b\"tags\": [\"Divisibility \"]\x7d" "" "divisibility" (by decide)⟩

/-! ## C3: totality and range of the tag resolver -/

/-- C3: `_resolve_tag` is a total function (it never raises: it is modelled
as a plain Lean function) whose result is always either a member of
`ALL_TAGS` or the no-match sentinel `none`; the candidate `"Divisibility "`
resolves to `"divisibility"` and `"percent"` resolves to `"percentages"`
via the alias table. -/
theorem C3_resolver_range_and_scenarios :
    (∀ s t : String, resolve_tag s = some t → t ∈ ALL_TAGS) ∧
    resolve_tag "Divisibility " = some "divisibility" ∧
    resolve_tag "percent" = some "percentages" :=
  ⟨fun _ _ h => resolve_tag_mem h, by decide, by decide⟩

/-- Witness for C3 at the concrete candidate `"Divisibility "`. -/
theorem C3_resolver_range_witness :
    resolve_tag "Divisibility " = some "divisibility" ∧
    "divisibility" ∈ ALL_TAGS :=
  ⟨by decide,
   C3_resolver_range_and_scenarios.1 "Divisibility " "divisibility" (by decide)⟩

/-! ## C8: the text-scan variant -/

/-- The text-scan fold, on a dict whose values are pairwise distinct and not
yet accumulated, appends exactly the values of the matching entries, in dict
order. -/
lemma extract_fold_eq (nt : String) :
    ∀ (d : List (String × String)) (acc : List String),
      (∀ p ∈ d, p.2 ∉ acc) → (d.map Prod.snd).Nodup →
      d.foldl
        (fun found p =>
          if p.1 ≠ "" ∧ containsSub nt.data p.1.data ∧ p.2 ∉ found then
            found ++ [p.2]
          else found) acc =
      acc ++ (d.filter
        (fun p => !(p.1 == "") && containsSub nt.data p.1.data)).map Prod.snd := by
  intro d
  induction d with
  | nil => intro acc _ _; simp
  | cons p rest ih =>
    intro acc hacc hnd
    rw [List.foldl_cons, List.filter_cons]
    rw [List.map_cons, List.nodup_cons] at hnd
    by_cases hc : p.1 ≠ "" ∧ containsSub nt.data p.1.data
    · have hnotin : p.2 ∉ acc := hacc p (List.mem_cons_self _ _)
      rw [if_pos ⟨hc.1, hc.2, hnotin⟩,
          if_pos (by simp [hc.1, hc.2] : (!(p.1 == "") && containsSub nt.data p.1.data) = true)]
      rw [ih (acc ++ [p.2]) ?_ hnd.2]
      · simp
      · intro q hq
        rw [List.mem_append]
        rintro (h' | h')
        · exact hacc q (List.mem_cons_of_mem _ hq) h'
        · simp at h'
          exact hnd.1 (h' ▸ List.mem_map_of_mem Prod.snd hq)
    · have hcond : ¬(p.1 ≠ "" ∧ containsSub nt.data p.1.data ∧ p.2 ∉ acc) := by
        intro h'; exact hc ⟨h'.1, h'.2.1⟩
      rw [if_neg hcond,
          if_neg (by
            intro h'
            simp only [Bool.and_eq_true, bne_iff_ne, ne_eq, Bool.not_eq_true'] at h'
            exact hc ⟨by simpa using h'.1, h'.2⟩)]
      exact ih acc (fun q hq => hacc q (List.mem_cons_of_mem _ hq)) hnd.2

/-- The canonical tags are pairwise distinct in the normalized-tag dict. -/
lemma normalizedTags_snd_nodup : (NORMALIZED_TAGS.map Prod.snd).Nodup := by decide

/-- C8 (amended): `_extract_tags_from_text` returns exactly the canonical
tags whose normalized form occurs as a substring of the normalized text,
de-duplicated — but ordered by the vocabulary (dict-iteration) order of
`NORMALIZED_TAGS`, not by first occurrence within the text. -/
theorem C8_text_scan_vocabulary_order :
    ∀ text : String,
      extract_tags_from_text text =
        (NORMALIZED_TAGS.filter
          (fun p => !(p.1 == "") &&
            containsSub (normalize_tag text).data p.1.data)).map Prod.snd := by
  intro text
  unfold extract_tags_from_text
  exact extract_fold_eq _ NORMALIZED_TAGS [] (by simp) normalizedTags_snd_nodup

/-- C8 counterexample: on the text `"angles and percentages"`, the code
returns `["percentages", "angles"]` (vocabulary order), while the claimed
first-occurrence order would be `["angles", "percentages"]` — `"angles"`
occurs at position 0 and `"percentages"` at position 11 of the normalized
text. -/
theorem C8_counterexample :
    extract_tags_from_text "angles and percentages" = ["percentages", "angles"] ∧
    specExtractTagsFirstOccurrence "angles and percentages" =
      ["angles", "percentages"] ∧
    extract_tags_from_text "angles and percentages" ≠
      specExtractTagsFirstOccurrence "angles and percentages" :=
  ⟨by decide, by decide, by decide⟩

/-! ## C7: the step-2 fallback of tag assignment -/

/-- C7 counterexample: with a non-empty, JSON-free response `"no idea"` and
reasoning text `"angles and percentages"`, the code scans only the response
text and returns `[]`, while scanning both texts (as claimed) would yield
the tags `{"angles", "percentages"}`. -/
theorem C7_counterexample :
    tag_problem "no idea" "angles and percentages" = [] ∧
    specScanBothTexts "no idea" "angles and percentages" =
      ["percentages", "angles"] :=
  ⟨by decide, by decide⟩

/-- C7 (amended): when step 1 yields no tags and raises no error, tag
assignment scans the fence-stripped response text if it is non-empty,
otherwise the reasoning text (`response_text or reasoning_text`) — it never
scans both; in particular, when the response text is empty and the reasoning
text contains "angles and percentages", the assigned tags are
`{"angles", "percentages"}` (concretely `["percentages", "angles"]`). -/
theorem C7_fallback_single_text :
    (∀ response reasoning : String,
      jsonTagsStep (stripFences (pyStrip response)) = .ok [] →
      tag_problem response reasoning =
        (if stripFences (pyStrip response) ≠ "" then
          extract_tags_from_text (stripFences (pyStrip response))
        else if reasoning ≠ "" then extract_tags_from_text reasoning
        else [])) ∧
    (tag_problem "" "angles and percentages" = ["percentages", "angles"] ∧
      "angles" ∈ tag_problem "" "angles and percentages" ∧
      "percentages" ∈ tag_problem "" "angles and percentages") := by
  constructor
  · intro r g h
    unfold tag_problem
    dsimp only
    rw [h]
    dsimp only
    rw [if_neg (by simp)]
    by_cases hr : stripFences (pyStrip r) ≠ ""
    · simp only [if_pos hr]
    · simp only [if_neg hr]
  · exact ⟨by decide, by decide, by decide⟩

/-- Witness for C7 (amended) at the concrete scenario inputs. -/
theorem C7_fallback_single_text_witness :
    tag_problem "" "angles and percentages" =
      (if stripFences (pyStrip "") ≠ "" then
        extract_tags_from_text (stripFences (pyStrip ""))
      else if "angles and percentages" ≠ "" then
        extract_tags_from_text "angles and percentages"
      else []) :=
  C7_fallback_single_text.1 "" "angles and percentages" (by rfl)

/-! ## C4 and C5: segmenter invariants -/

/-- Truncating to 5 and padding with empty strings yields length 5. -/
lemma take_pad_length (l : List String) :
    (l.take 5 ++ List.replicate (5 - (l.take 5).length) "").length = 5 := by
  rw [List.length_append, List.length_replicate]
  have := List.length_take_le 5 l
  omega

/-- Every processed item carries exactly 5 choices (truncate then pad). -/
lemma processItem_choices_length (fi : String → String → Option String)
    (oc : Node → String) (b : String) (item : Node) :
    (processItem fi oc b item).choices.length = 5 := by
  unfold processItem
  dsimp only
  exact take_pad_length _

/-- The item fold preserves the segment invariant and advances the counter
by the number of items. -/
lemma segFold_inv (fi : String → String → Option String) (oc : Node → String)
    (b : String) :
    ∀ (items : List Node) (st : Nat × List (Nat × Seg)),
      0 < st.1 →
      (∀ kv ∈ st.2, 1 ≤ kv.1 ∧ kv.1 < st.1 ∧ kv.2.choices.length = 5) →
      (items.foldl (segStep fi oc b) st).1 = st.1 + items.length ∧
      0 < (items.foldl (segStep fi oc b) st).1 ∧
      ∀ kv ∈ (items.foldl (segStep fi oc b) st).2,
        1 ≤ kv.1 ∧ kv.1 < (items.foldl (segStep fi oc b) st).1 ∧
        kv.2.choices.length = 5 := by
  intro items
  induction items with
  | nil =>
    intro st h0 hkv
    exact ⟨by simp, h0, by simpa using hkv⟩
  | cons item rest ih =>
    intro st h0 hkv
    rw [List.foldl_cons]
    have hstep0 : 0 < (segStep fi oc b st item).1 := by
      simp only [segStep]; omega
    have hstepkv : ∀ kv ∈ (segStep fi oc b st item).2,
        1 ≤ kv.1 ∧ kv.1 < (segStep fi oc b st item).1 ∧
        kv.2.choices.length = 5 := by
      intro kv hkv2
      simp only [segStep] at hkv2 ⊢
      rcases pdInsert_mem hkv2 with h' | h'
      · have h3 := hkv kv h'
        exact ⟨h3.1, by omega, h3.2.2⟩
      · subst h'
        exact ⟨h0, by omega, processItem_choices_length fi oc b item⟩
    obtain ⟨hlen, hpos, hinv⟩ := ih (segStep fi oc b st item) hstep0 hstepkv
    refine ⟨?_, hpos, hinv⟩
    rw [hlen]
    simp only [segStep, List.length_cons]
    omega

/-- The outer (per-list) fold preserves the invariant; the final counter is
the initial counter plus the total number of top-level items. -/
lemma segOuterFold_inv (fi : String → String → Option String)
    (oc : Node → String) (b : String) :
    ∀ (ols : List Node) (st : Nat × List (Nat × Seg)),
      0 < st.1 →
      (∀ kv ∈ st.2, 1 ≤ kv.1 ∧ kv.1 < st.1 ∧ kv.2.choices.length = 5) →
      (ols.foldl (fun st ol => (findDirect "li" ol).foldl (segStep fi oc b) st) st).1
        = st.1 + ((ols.map (fun ol => (findDirect "li" ol).length)).sum) ∧
      0 < (ols.foldl (fun st ol => (findDirect "li" ol).foldl (segStep fi oc b) st) st).1 ∧
      ∀ kv ∈ (ols.foldl (fun st ol => (findDirect "li" ol).foldl (segStep fi oc b) st) st).2,
        1 ≤ kv.1 ∧
        kv.1 < (ols.foldl (fun st ol => (findDirect "li" ol).foldl (segStep fi oc b) st) st).1 ∧
        kv.2.choices.length = 5 := by
  intro ols
  induction ols with
  | nil =>
    intro st h0 hkv
    exact ⟨by simp, h0, by simpa using hkv⟩
  | cons ol rest ih =>
    intro st h0 hkv
    rw [List.foldl_cons]
    obtain ⟨hlen1, hpos1, hinv1⟩ := segFold_inv fi oc b (findDirect "li" ol) st h0 hkv
    obtain ⟨hlen2, hpos2, hinv2⟩ :=
      ih ((findDirect "li" ol).foldl (segStep fi oc b) st) hpos1 hinv1
    refine ⟨?_, hpos2, hinv2⟩
    rw [hlen2, hlen1]
    simp only [List.map_cons, List.sum_cons]
    omega

/-- The segment dict's keys are the positions `1 .. totalTopItems`, and every
segment has exactly 5 choices. -/
lemma extract_sections_inv (fi : String → String → Option String)
    (oc : Node → String) (content : Node) (b : String) :
    ∀ kv ∈ extract_problem_sections fi oc content b,
      1 ≤ kv.1 ∧ kv.1 ≤ totalTopItems content ∧ kv.2.choices.length = 5 := by
  intro kv hkv
  unfold extract_problem_sections at hkv
  dsimp only at hkv
  obtain ⟨hlen, _, hinv⟩ := segOuterFold_inv fi oc b
    ((nodesWithin (decomposeLongdesc content)).filter isOlType1) (1, [])
    (by simp) (by simp)
  have h := hinv kv hkv
  refine ⟨h.1, ?_, h.2.2⟩
  have h2 := h.2.1
  rw [hlen] at h2
  unfold totalTopItems
  omega

lemma insertByNumber_mem {p x : Problem} :
    ∀ {l : List Problem}, x ∈ insertByNumber p l → x = p ∨ x ∈ l := by
  intro l
  induction l with
  | nil =>
    intro h
    rw [insertByNumber] at h
    exact Or.inl (List.mem_singleton.mp h)
  | cons q rest ih =>
    intro h
    rw [insertByNumber] at h
    split at h
    · rcases List.mem_cons.mp h with h | h
      · exact Or.inl h
      · exact Or.inr h
    · rcases List.mem_cons.mp h with h | h
      · exact Or.inr (by simp [h])
      · rcases ih h with h' | h'
        · exact Or.inl h'
        · exact Or.inr (List.mem_cons_of_mem _ h')

lemma sortByNumber_mem {x : Problem} :
    ∀ {l : List Problem}, x ∈ sortByNumber l → x ∈ l := by
  intro l
  induction l with
  | nil => intro h; simp [sortByNumber] at h
  | cons q rest ih =>
    intro h
    unfold sortByNumber at h
    rw [List.foldr_cons] at h
    rcases insertByNumber_mem h with h' | h'
    · simp [h']
    · exact List.mem_cons_of_mem _ (ih h')

/-- Every assembled record arises from a numbered segment. -/
lemma parse_contest_mem {fi : String → String → Option String}
    {oc : Node → String} {content : Node} {year grade : Int} {p : Problem}
    (h : p ∈ parse_contest_page fi oc content year grade) :
    ∃ kv ∈ extract_problem_sections fi oc content (CONTEST_URL year grade),
      p = problemNew (Problem.create_id year grade kv.1) "gauss" grade year kv.1
        kv.2.statement kv.2.choices kv.2.images (CONTEST_URL year grade) := by
  unfold parse_contest_page at h
  dsimp only at h
  have h2 := sortByNumber_mem h
  rcases List.mem_map.mp h2 with ⟨kv, hkv, hp⟩
  exact ⟨kv, hkv, hp.symm⟩

/-- C4: every segment produced by the segmenter has a choices list of length
exactly 5 (fewer extracted items are padded with empty strings, excess is
truncated), for every document and every image/OCR capability; consequently
every assembled record satisfies `len(choices) == 5`. -/
theorem C4_choices_exactly_five :
    ∀ (fetchImg : String → String → Option String) (ocrImg : Node → String)
      (content : Node) (baseUrl : String) (year grade : Int),
      (∀ n seg, (n, seg) ∈ extract_problem_sections fetchImg ocrImg content baseUrl →
        seg.choices.length = 5) ∧
      (∀ p ∈ parse_contest_page fetchImg ocrImg content year grade,
        p.choices.length = 5) := by
  intro fi oc content b year grade
  constructor
  · intro n seg h
    exact (extract_sections_inv fi oc content b (n, seg) h).2.2
  · intro p h
    rcases parse_contest_mem h with ⟨kv, hkv, rfl⟩
    exact (extract_sections_inv fi oc content _ kv hkv).2.2

/-- Witness for C4 at a concrete two-problem document. -/
theorem C4_choices_exactly_five_witness :
    (⟨"What is 2+2?", ["3", "4", "5", "", ""], []⟩ : Seg).choices.length = 5 :=
  (C4_choices_exactly_five fetch0 ocr0 docSmall "" 2025 7).1 1
    ⟨"What is 2+2?", ["3", "4", "5", "", ""], []⟩ (by decide)

/-- C5 counterexample: a document whose numbered list has 26 top-level items
yields a segment numbered 26 and an assembled record with
`problem_number = 26 ∉ [1, 25]`. -/
theorem C5_counterexample :
    (parse_contest_page fetch0 ocr0 doc26 2025 7).any
      (fun p => p.problem_number == 26) = true ∧
    (dlook 26 (extract_problem_sections fetch0 ocr0 doc26 "")).isSome = true :=
  ⟨by decide, by decide⟩

/-- C5 (amended): the structured segmenter's 1-based positional numbering
always assigns numbers in `[1, N]` where `N` is the total number of top-level
items of the document's numbered lists; in particular the numbers lie in
`[1, 25]` whenever the document has at most 25 items (as the real 25-problem
contest documents do), but nothing bounds them for larger documents. -/
theorem C5_problem_number_bounds :
    ∀ (fetchImg : String → String → Option String) (ocrImg : Node → String)
      (content : Node) (baseUrl : String) (year grade : Int),
      (∀ n seg, (n, seg) ∈ extract_problem_sections fetchImg ocrImg content baseUrl →
        1 ≤ n ∧ n ≤ totalTopItems content ∧
        (totalTopItems content ≤ 25 → n ≤ 25)) ∧
      (∀ p ∈ parse_contest_page fetchImg ocrImg content year grade,
        1 ≤ p.problem_number ∧ p.problem_number ≤ totalTopItems content ∧
        (totalTopItems content ≤ 25 → p.problem_number ≤ 25)) := by
  intro fi oc content b year grade
  constructor
  · intro n seg h
    have h2 := extract_sections_inv fi oc content b (n, seg) h
    exact ⟨h2.1, h2.2.1, fun h25 => le_trans h2.2.1 h25⟩
  · intro p h
    rcases parse_contest_mem h with ⟨kv, hkv, rfl⟩
    have h2 := extract_sections_inv fi oc content _ kv hkv
    exact ⟨h2.1, h2.2.1, fun h25 => le_trans h2.2.1 h25⟩

/-- Witness for C5 (amended) at a concrete two-problem document. -/
theorem C5_problem_number_bounds_witness :
    1 ≤ 2 ∧ 2 ≤ totalTopItems docSmall ∧ (totalTopItems docSmall ≤ 25 → 2 ≤ 25) :=
  (C5_problem_number_bounds fetch0 ocr0 docSmall "" 2025 7).1 2
    ⟨"Second problem text", ["", "", "", "", ""], []⟩ (by decide)

/-! ## C1: the `images` field of serialized records -/

/-- C1: the serialized field names of every record written by
`save_problems` are exactly the declared fields of the pydantic model —
`images` is not among them; the segmenter does collect images (second
conjunct), but the record constructor drops them (third conjunct). -/
theorem C1_images_never_serialized :
    (∀ (problems : List Problem) (rec : List (String × Jv)),
      rec ∈ save_problems problems →
      rec.map Prod.fst =
        ["id", "source", "grade", "year", "problem_number", "statement",
         "choices", "answer", "solution", "tags", "url"]) ∧
    ((dlook 1 (extract_problem_sections fetch0 ocr0 docImg
        (CONTEST_URL 2025 7))).map Seg.images =
      some ["data:image/png;base64,AAAA"]) ∧
    (∀ rec ∈ save_problems (parse_contest_page fetch0 ocr0 docImg 2025 7),
      "images" ∉ rec.map Prod.fst) := by
  refine ⟨?_, by decide, by decide⟩
  intro problems rec h
  unfold save_problems at h
  rcases List.mem_map.mp h with ⟨p, _, rfl⟩
  rfl

/-- Witness for C1 at a concrete record. -/
theorem C1_images_never_serialized_witness :
    (model_dump probEx).map Prod.fst =
      ["id", "source", "grade", "year", "problem_number", "statement",
       "choices", "answer", "solution", "tags", "url"] :=
  C1_images_never_serialized.1 [probEx] (model_dump probEx)
    (by simp [save_problems])

/-! ## C10: the retrieval surface's tag filter -/

/-- C10: with a non-empty parsed tag list, `get_problems` returns exactly the
stored problems that carry at least one requested tag (ANY/union semantics)
and pass the grade/year filters, projected to list view; a `tags` parameter
that is empty or contains only commas/whitespace (parsed tag list empty)
applies no tag filter at all. -/
theorem C10_tag_filter_any_semantics :
    ∀ (db : List ApiProblem) (s : String) (grade year : Option Int),
      (parseTagsParam s ≠ [] →
        get_problems db (some s) grade year =
          (db.filter (fun p =>
            (parseTagsParam s).any (fun t => p.tags.contains t) &&
            (match grade with | some g => p.grade == g | none => true) &&
            (match year with | some y => p.year == y | none => true))).map
            toListResponse) ∧
      (parseTagsParam s = [] →
        get_problems db (some s) grade year = get_problems db none grade year) := by
  intro db s grade year
  constructor
  · intro hne
    have hs : s ≠ "" := by
      intro h
      subst h
      exact hne (by rfl)
    unfold get_problems
    dsimp only
    rw [if_pos hs, if_pos hne]
    rcases grade with _ | g <;> rcases year with _ | y <;> dsimp only <;>
        congr 1
    · exact (List.filter_congr (by intro a _; simp)).symm
    · rw [List.filter_filter]
      exact List.filter_congr (by intro a _; simp [Bool.and_comm])
    · rw [List.filter_filter]
      exact List.filter_congr (by intro a _; simp [Bool.and_comm])
    · rw [List.filter_filter, List.filter_filter]
      refine List.filter_congr ?_
      intro a _
      cases ha : (parseTagsParam s).any (fun t => a.tags.contains t) <;>
        cases hg : a.grade == g <;> cases hy : a.year == y <;> simp [ha, hg, hy]
  · intro hempty
    by_cases hs : s = ""
    · subst hs
      unfold get_problems
      dsimp only
      rw [if_neg (by simp)]
    · unfold get_problems
      dsimp only
      rw [if_pos hs, if_neg (by simpa using hempty)]

/-- Witness for C10 at a concrete corpus and filter string. -/
theorem C10_tag_filter_any_semantics_witness :
    get_problems dbSmall (some "angles, percentages") none none =
      (dbSmall.filter (fun p =>
        (parseTagsParam "angles, percentages").any
          (fun t => p.tags.contains t) && true && true)).map toListResponse :=
  (C10_tag_filter_any_semantics dbSmall "angles, percentages" none none).1
    (by decide)

/-! ## C6: the answer-key matcher's grade attribution -/

lemma dlook_append {α β : Type} [DecidableEq α] (k : α) :
    ∀ (d1 d2 : List (α × β)),
      dlook k (d1 ++ d2) =
        match dlook k d1 with
        | some v => some v
        | none => dlook k d2 := by
  intro d1 d2
  induction d1 with
  | nil => simp [dlook]
  | cons p rest ih =>
    rw [List.cons_append, dlook, dlook]
    split
    · rfl
    · exact ih

lemma pdInsert_fresh {α β : Type} [DecidableEq α] {d : List (α × β)} {k : α}
    {v : β} (h : dlook k d = none) : pdInsert d k v = d ++ [(k, v)] := by
  unfold pdInsert
  rw [h]
  rfl

lemma dlook_map_update_ne {α β : Type} [DecidableEq α] (k k' : α) (v : β)
    (h : k' ≠ k) :
    ∀ (d : List (α × β)),
      dlook k (d.map (fun p => if p.1 = k' then (k', v) else p)) = dlook k d := by
  intro d
  induction d with
  | nil => rfl
  | cons p rest ih =>
    rw [List.map_cons, dlook, dlook]
    by_cases hp : p.1 = k'
    · rw [if_pos hp]
      dsimp only
      rw [if_neg h, if_neg (fun hk => h (hp ▸ hk))]
      exact ih
    · rw [if_neg hp]
      split
      · rfl
      · exact ih

lemma dlook_pdInsert_ne {α β : Type} [DecidableEq α] {d : List (α × β)}
    {k k' : α} {v : β} (h : k' ≠ k) : dlook k (pdInsert d k' v) = dlook k d := by
  unfold pdInsert
  split
  · exact dlook_map_update_ne k k' v h d
  · rw [dlook_append]
    split
    · rename_i w hw
      exact hw.symm
    · rename_i hw
      rw [dlook, if_neg h, dlook]
      exact hw.symm

/-- In-block processing: while no entry has number 1, the grade cursor is
untouched and each entry is stored under the current grade. -/
lemma solGo_block (g : Nat) :
    ∀ (xs ys : List (Nat × Char)) (acc : List ((Nat × Nat) × (Char × String))),
      (∀ m ∈ xs, m.1 ≠ 1 ∧ 1 ≤ m.1 ∧ m.1 ≤ 25) →
      solGo g acc (xs ++ ys) =
        solGo g (xs.foldl (fun acc m => pdInsert acc (g, m.1) (m.2, "")) acc) ys := by
  intro xs
  induction xs with
  | nil => intro ys acc _; simp
  | cons m rest ih =>
    intro ys acc hxs
    have hm := hxs m (List.mem_cons_self _ _)
    rw [List.cons_append]
    show solGo g acc ((m.1, m.2) :: (rest ++ ys)) = _
    rw [solGo]
    rw [if_pos ⟨hm.2.1, hm.2.2⟩]
    dsimp only
    rw [if_neg (by simp [hm.1])]
    rw [List.foldl_cons]
    exact ih ys _ (fun q hq => hxs q (List.mem_cons_of_mem _ hq))

/-- A fold of fresh-key inserts is an append of the mapped block. -/
lemma foldl_insert_block (g : Nat) :
    ∀ (ms : List (Nat × Char)) (acc : List ((Nat × Nat) × (Char × String))),
      (∀ m ∈ ms, dlook (g, m.1) acc = none) →
      (ms.map Prod.fst).Nodup →
      ms.foldl (fun acc m => pdInsert acc (g, m.1) (m.2, "")) acc =
        acc ++ ms.map (fun m => ((g, m.1), (m.2, ""))) := by
  intro ms
  induction ms with
  | nil => intro acc _ _; simp
  | cons m rest ih =>
    intro acc hfresh hnd
    rw [List.map_cons, List.nodup_cons] at hnd
    rw [List.foldl_cons, pdInsert_fresh (hfresh m (List.mem_cons_self _ _))]
    rw [ih (acc ++ [((g, m.1), (m.2, ""))]) ?_ hnd.2]
    · simp
    · intro q hq
      rw [dlook_append]
      rw [hfresh q (List.mem_cons_of_mem _ hq)]
      dsimp only
      rw [dlook]
      rw [if_neg ?_, dlook]
      intro hkey
      have : m.1 = q.1 := by
        have := congrArg Prod.snd hkey
        simpa using this
      exact hnd.1 (this ▸ List.mem_map_of_mem Prod.fst hq)

/-- Looking up the current grade inside a mapped block. -/
lemma dlook_block {g n : Nat} {a : Char} :
    ∀ {ms : List (Nat × Char)},
      (ms.map Prod.fst).Nodup → (n, a) ∈ ms →
      dlook (g, n) (ms.map (fun m => ((g, m.1), (m.2, "")))) = some (a, "") := by
  intro ms
  induction ms with
  | nil => intro _ h; simp at h
  | cons m rest ih =>
    intro hnd hmem
    rw [List.map_cons, List.nodup_cons] at hnd
    rw [List.map_cons, dlook]
    rcases List.mem_cons.mp hmem with h | h
    · have hm : m = (n, a) := h.symm
      subst hm
      rw [if_pos rfl]
    · rw [if_neg ?_]
      · exact ih hnd.2 h
      · intro hkey
        have hn : m.1 = n := by
          have := congrArg Prod.snd hkey
          simpa using this
        exact hnd.1 (hn ▸ List.mem_map_of_mem Prod.fst h)

/-- A block mapped at one grade is invisible to lookups at another grade. -/
lemma dlook_block_other_grade {g g' n : Nat} (hg : g' ≠ g) :
    ∀ (ms : List (Nat × Char)),
      dlook (g', n) (ms.map (fun m => ((g, m.1), (m.2, "")))) = none := by
  intro ms
  induction ms with
  | nil => rfl
  | cons m rest ih =>
    rw [List.map_cons, dlook, if_neg ?_]
    · exact ih
    · intro hkey
      exact hg ((congrArg Prod.fst hkey).symm)

/-- A number outside a mapped block is not found in it. -/
lemma dlook_block_not_mem {g n : Nat} :
    ∀ {ms : List (Nat × Char)}, n ∉ ms.map Prod.fst →
      dlook (g, n) (ms.map (fun m => ((g, m.1), (m.2, "")))) = none := by
  intro ms
  induction ms with
  | nil => intro _; rfl
  | cons m rest ih =>
    intro hn
    rw [List.map_cons, dlook, if_neg ?_]
    · exact ih (fun h => hn (List.mem_cons_of_mem _ h))
    · intro hkey
      have : m.1 = n := by
        have := congrArg Prod.snd hkey
        simpa using this
      exact hn (this ▸ List.mem_cons_self _ _)

lemma dlook_map_update_self {α β : Type} [DecidableEq α] (k : α) (v : β) :
    ∀ (d : List (α × β)), (dlook k d).isSome →
      dlook k (d.map (fun p => if p.1 = k then (k, v) else p)) = some v := by
  intro d
  induction d with
  | nil => intro h; simp [dlook] at h
  | cons p rest ih =>
    intro h
    rw [List.map_cons, dlook]
    by_cases hp : p.1 = k
    · rw [if_pos hp]
      dsimp only
      rw [if_pos rfl]
    · rw [if_neg hp]
      rw [if_neg hp]
      rw [dlook, if_neg hp] at h
      exact ih h

lemma dlook_pdInsert_self {α β : Type} [DecidableEq α] (d : List (α × β))
    (k : α) (v : β) : dlook k (pdInsert d k v) = some v := by
  unfold pdInsert
  split
  · rename_i h
    exact dlook_map_update_self k v d h
  · rename_i h
    rw [dlook_append]
    rw [Option.not_isSome_iff_eq_none.mp h]
    dsimp only
    rw [dlook, if_pos rfl]

/-- Lookups miss a dict none of whose keys match. -/
lemma dlook_none_of_ne {α β : Type} [DecidableEq α] {k : α} :
    ∀ {d : List (α × β)}, (∀ kv ∈ d, kv.1 ≠ k) → dlook k d = none := by
  intro d
  induction d with
  | nil => intro _; rfl
  | cons p rest ih =>
    intro h
    rw [dlook, if_neg (h p (List.mem_cons_self _ _))]
    exact ih (fun q hq => h q (List.mem_cons_of_mem _ hq))

lemma dlook_cons_self {α β : Type} [DecidableEq α] (k : α) (v : β)
    (d : List (α × β)) : dlook k ((k, v) :: d) = some v := by
  rw [dlook, if_pos rfl]

lemma dlook_cons_ne {α β : Type} [DecidableEq α] {k k' : α} (v : β)
    (d : List (α × β)) (h : k' ≠ k) : dlook k ((k', v) :: d) = dlook k d := by
  rw [dlook, if_neg h]

/-- The match-processing loop keeps the grade cursor at 7 (and all stored
keys at grade 7) as long as problem number 1 has occurred at most once. -/
lemma solGo_all_grade7 :
    ∀ (ms : List (Nat × Char)) (acc : List ((Nat × Nat) × (Char × String))),
      (∀ kv ∈ acc, kv.1.1 = 7) →
      (List.countP (fun m => m.1 == 1) ms +
        (if (dlook ((7 : Nat), (1 : Nat)) acc).isSome then 1 else 0) ≤ 1) →
      ∀ kv ∈ solGo 7 acc ms, kv.1.1 = 7 := by
  intro ms
  induction ms with
  | nil => intro acc hacc _ kv hkv; exact hacc kv hkv
  | cons m rest ih =>
    intro acc hacc hcount kv hkv
    obtain ⟨num, ans⟩ := m
    rw [solGo] at hkv
    rw [List.countP_cons] at hcount
    split at hkv
    · dsimp only at hkv
      by_cases h1 : num = 1
      · subst h1
        have hnot : ¬(dlook ((7 : Nat), (1 : Nat)) acc).isSome = true := by
          intro hisme
          rw [hisme] at hcount
          simp at hcount
        rw [if_neg (fun hand => hnot hand.2)] at hkv
        have hfalse : (dlook ((7 : Nat), (1 : Nat)) acc).isSome = false :=
          Bool.eq_false_iff.mpr hnot
        rw [hfalse] at hcount
        simp at hcount
        refine ih (pdInsert acc (7, 1) (ans, "")) ?_ ?_ kv hkv
        · intro q hq
          rcases pdInsert_mem hq with h' | h'
          · exact hacc q h'
          · rw [h']
        · rw [dlook_pdInsert_self]
          simpa using hcount
      · rw [if_neg (fun hand => h1 hand.1)] at hkv
        have hbeq : (num == 1) = false := by simp [h1]
        rw [hbeq] at hcount
        simp at hcount
        refine ih (pdInsert acc (7, num) (ans, "")) ?_ ?_ kv hkv
        · intro q hq
          rcases pdInsert_mem hq with h' | h'
          · exact hacc q h'
          · rw [h']
        · rw [dlook_pdInsert_ne (by simp [h1])]
          omega
    · rename_i hrange
      have h1 : num ≠ 1 := by
        intro h
        subst h
        exact hrange ⟨le_refl 1, by omega⟩
      have hbeq : (num == 1) = false := by simp [h1]
      rw [hbeq] at hcount
      simp at hcount
      refine ih acc hacc (by omega) kv hkv

/-- C6: on a flattened solutions text whose answer-pattern matches form two
consecutive blocks each starting at problem 1 (and otherwise free of
problem 1, with distinct numbers in `[1, 25]` within each block), the first
block's letters are attributed to grade 7 and the second block's to grade 8
— the cursor flips exactly when problem 1 recurs after `(7, 1)` was
recorded; and if problem 1 never recurs, every recorded entry is attributed
to grade 7. -/
theorem C6_grade_attribution :
    (∀ (text : String) (l1 l2 : Char) (r1 r2 : List (Nat × Char)),
      findAnswerMatches text = ((1, l1) :: r1) ++ ((1, l2) :: r2) →
      (∀ m ∈ r1, m.1 ≠ 1 ∧ 1 ≤ m.1 ∧ m.1 ≤ 25) →
      (∀ m ∈ r2, m.1 ≠ 1 ∧ 1 ≤ m.1 ∧ m.1 ≤ 25) →
      (r1.map Prod.fst).Nodup → (r2.map Prod.fst).Nodup →
      (∀ p ∈ (1, l1) :: r1,
        dlook (7, p.1) (parse_solution_text text) = some (p.2, "")) ∧
      (∀ p ∈ (1, l2) :: r2,
        dlook (8, p.1) (parse_solution_text text) = some (p.2, ""))) ∧
    (∀ (text : String),
      List.countP (fun m => m.1 == 1) (findAnswerMatches text) ≤ 1 →
      ∀ (g n : Nat) (v : Char × String),
        dlook (g, n) (parse_solution_text text) = some v → g = 7) := by
  constructor
  · intro text l1 l2 r1 r2 hm hr1 hr2 hnd1 hnd2
    have hfresh1 : ∀ m ∈ r1,
        dlook ((7 : Nat), m.1) [(((7 : Nat), (1 : Nat)), (l1, ""))] = none := by
      intro m hm'
      apply dlook_none_of_ne
      intro kv hkv
      simp only [List.mem_singleton] at hkv
      subst hkv
      intro hk
      exact (hr1 m hm').1 (by simpa using (congrArg Prod.snd hk).symm)
    have hfresh2 : dlook ((8 : Nat), (1 : Nat))
        ([(((7 : Nat), (1 : Nat)), (l1, ""))] ++
          r1.map (fun m => (((7 : Nat), m.1), (m.2, "")))) = none := by
      apply dlook_none_of_ne
      intro kv hkv
      rcases List.mem_append.mp hkv with h | h
      · simp only [List.mem_singleton] at h
        subst h
        simp
      · rcases List.mem_map.mp h with ⟨m, _, rfl⟩
        simp
    have hfresh3 : ∀ q ∈ r2, dlook ((8 : Nat), q.1)
        (([(((7 : Nat), (1 : Nat)), (l1, ""))] ++
          r1.map (fun m => (((7 : Nat), m.1), (m.2, "")))) ++
          [(((8 : Nat), (1 : Nat)), (l2, ""))]) = none := by
      intro q hq
      apply dlook_none_of_ne
      intro kv hkv
      rcases List.mem_append.mp hkv with h | h
      · rcases List.mem_append.mp h with h' | h'
        · simp only [List.mem_singleton] at h'
          subst h'
          simp
        · rcases List.mem_map.mp h' with ⟨m, _, rfl⟩
          simp
      · simp only [List.mem_singleton] at h
        subst h
        intro hk
        exact (hr2 q hq).1 (by simpa using (congrArg Prod.snd hk).symm)
    have hD : parse_solution_text text =
        ((((7 : Nat), (1 : Nat)), (l1, "")) ::
          r1.map (fun m => (((7 : Nat), m.1), (m.2, "")))) ++
        ((((8 : Nat), (1 : Nat)), (l2, "")) ::
          r2.map (fun m => (((8 : Nat), m.1), (m.2, "")))) := by
      unfold parse_solution_text
      rw [hm, List.cons_append, solGo]
      rw [if_pos ⟨le_refl 1, by omega⟩]
      dsimp only
      rw [if_neg (by simp [dlook])]
      rw [pdInsert_fresh (by rfl), List.nil_append]
      rw [solGo_block 7 r1 _ _ hr1]
      rw [foldl_insert_block 7 r1 _ hfresh1 hnd1]
      rw [solGo]
      rw [if_pos ⟨le_refl 1, by omega⟩]
      dsimp only
      rw [if_pos ⟨rfl, by
        rw [List.singleton_append, dlook_cons_self]
        rfl⟩]
      rw [pdInsert_fresh hfresh2]
      rw [← List.append_nil r2, solGo_block 8 r2 [] _ hr2]
      rw [foldl_insert_block 8 r2 _ hfresh3 hnd2]
      rw [solGo]
      simp
    rw [hD]
    constructor
    · intro p hp
      rw [List.cons_append]
      rcases List.mem_cons.mp hp with h | h
      · have hp1 : p = (1, l1) := h
        subst hp1
        exact dlook_cons_self _ _ _
      · rw [dlook_cons_ne _ _
          (fun hk => (hr1 p h).1 (by simpa using (congrArg Prod.snd hk).symm))]
        rw [dlook_append, dlook_block hnd1 (by simpa using h)]
    · intro p hp
      rw [List.cons_append]
      rw [dlook_cons_ne _ _
        (fun hk => absurd (congrArg Prod.fst hk) (by norm_num))]
      rw [dlook_append, dlook_block_other_grade (by omega) r1]
      dsimp only
      rcases List.mem_cons.mp hp with h | h
      · have hp1 : p = (1, l2) := h
        subst hp1
        exact dlook_cons_self _ _ _
      · rw [dlook_cons_ne _ _
          (fun hk => (hr2 p h).1 (by simpa using (congrArg Prod.snd hk).symm))]
        exact dlook_block hnd2 (by simpa using h)
  · intro text hcount g n v h
    have hkeys := solGo_all_grade7 (findAnswerMatches text) [] (by simp)
      (by simpa using hcount)
    exact hkeys ((g, n), v) (dlook_mem h)

/-- Witness for C6 at a concrete two-block answer key. -/
theorem C6_grade_attribution_witness :
    dlook ((7 : Nat), (2 : Nat)) (parse_solution_text "1. A 2. B 1. C 3. D") =
      some ('B', "") ∧
    dlook ((8 : Nat), (3 : Nat)) (parse_solution_text "1. A 2. B 1. C 3. D") =
      some ('D', "") := by
  have h := C6_grade_attribution.1 "1. A 2. B 1. C 3. D" 'A' 'C'
    [(2, 'B')] [(3, 'D')] (by decide) (by decide) (by decide) (by decide)
    (by decide)
  exact ⟨h.1 (2, 'B') (by decide), h.2 (3, 'D') (by decide)⟩

/-! ## C9: idempotence of the text normalizer -/

lemma mem_dropTrail {p : Char → Bool} {c : Char} :
    ∀ {l : List Char}, c ∈ dropTrail p l → c ∈ l := by
  intro l
  induction l with
  | nil => intro h; simp [dropTrail] at h
  | cons d rest ih =>
    intro h
    rw [dropTrail] at h
    split at h
    · split at h
      · simp at h
      · simp at h
        simp [h]
    · rcases List.mem_cons.mp h with h' | h'
      · simp [h']
      · exact List.mem_cons_of_mem _ (ih h')

lemma dropTrail_prefix (p : Char → Bool) :
    ∀ (l : List Char), ∃ m, l = dropTrail p l ++ m := by
  intro l
  induction l with
  | nil => exact ⟨[], rfl⟩
  | cons c rest ih =>
    rcases ih with ⟨m, hm⟩
    rw [dropTrail]
    split
    · split
      · exact ⟨c :: rest, rfl⟩
      · exact ⟨rest, rfl⟩
    · exact ⟨m, by rw [List.cons_append, ← hm]⟩

lemma dropTrail_idem (p : Char → Bool) :
    ∀ (l : List Char), dropTrail p (dropTrail p l) = dropTrail p l := by
  intro l
  induction l with
  | nil => rfl
  | cons c rest ih =>
    rw [dropTrail]
    split
    · split
      · rfl
      · rename_i hpc
        rw [dropTrail]
        simp [hpc, dropTrail]
    · rename_i hr
      rw [dropTrail]
      rw [ih]
      rw [if_neg hr]

lemma dropWhile_head_false (p : Char → Bool) :
    ∀ (l : List Char),
      (l.dropWhile p = []) ∨
      (∃ c rest, l.dropWhile p = c :: rest ∧ p c = false) := by
  intro l
  induction l with
  | nil => exact Or.inl rfl
  | cons c rest ih =>
    rw [List.dropWhile_cons]
    by_cases hc : p c = true
    · rw [if_pos hc]
      exact ih
    · rw [if_neg hc]
      exact Or.inr ⟨c, rest, rfl, by simpa using hc⟩

lemma stripBoth_idem (p : Char → Bool) (l : List Char) :
    stripBoth p (stripBoth p l) = stripBoth p l := by
  unfold stripBoth
  set w := l.dropWhile p with hw
  have hdw : (dropTrail p w).dropWhile p = dropTrail p w := by
    rcases dropWhile_head_false p l with h | ⟨c, rest, hcr, hpc⟩
    · rw [← hw] at h
      rw [h]
      rfl
    · rw [← hw] at hcr
      rcases dropTrail_prefix p w with ⟨m, hm⟩
      cases hdt : dropTrail p w with
      | nil => rfl
      | cons d rest2 =>
        have hd : d = c := by
          rw [hdt] at hm
          rw [hm, List.cons_append] at hcr
          exact (List.cons.injEq _ _ _ _ ▸ hcr).1
        rw [List.dropWhile_cons, hd, if_neg (by simp [hpc])]
  rw [hdw, dropTrail_idem]

lemma mem_stripBoth {p : Char → Bool} {c : Char} {l : List Char}
    (h : c ∈ stripBoth p l) : c ∈ l := by
  unfold stripBoth at h
  exact (List.dropWhile_suffix p).subset (mem_dropTrail h)

/-- Every whitespace character emitted by the collapse pass is a space. -/
lemma collapseAux_ws_space :
    ∀ (l : List Char) (b : Bool) (c : Char),
      c ∈ collapseWsAux b l → pyIsSpace c = true → c = ' ' := by
  intro l
  induction l with
  | nil => intro b c h; simp [collapseWsAux] at h
  | cons d rest ih =>
    intro b c h hws
    rw [collapseWsAux] at h
    split at h
    · split at h
      · exact ih true c h hws
      · rcases List.mem_cons.mp h with h' | h'
        · exact h'
        · exact ih true c h' hws
    · rcases List.mem_cons.mp h with h' | h'
      · subst h'
        rename_i hd
        simp [hws] at hd
      · exact ih false c h' hws

/-- After a collapsed whitespace run, the next emitted character is not
whitespace. -/
lemma collapseAux_true_head :
    ∀ (l : List Char), headNotWs (collapseWsAux true l) = true := by
  intro l
  induction l with
  | nil => rfl
  | cons c rest ih =>
    rw [collapseWsAux]
    split
    · rw [if_pos rfl]
      exact ih
    · rename_i hc
      simp [headNotWs, hc]

lemma noTwoSpaces_tail {c : Char} {l : List Char}
    (h : noTwoSpaces (c :: l) = true) : noTwoSpaces l = true := by
  cases l with
  | nil => rfl
  | cons d rest =>
    rw [noTwoSpaces, Bool.and_eq_true] at h
    exact h.2

/-- Collapsed text has no two adjacent whitespace characters. -/
lemma collapseAux_noTwoSpaces :
    ∀ (l : List Char) (b : Bool), noTwoSpaces (collapseWsAux b l) = true := by
  intro l
  induction l with
  | nil => intro b; rfl
  | cons c rest ih =>
    intro b
    rw [collapseWsAux]
    split
    · split
      · exact ih true
      · cases hrest : collapseWsAux true rest with
        | nil => rfl
        | cons d rest2 =>
          rw [noTwoSpaces]
          have hd := collapseAux_true_head rest
          rw [hrest] at hd
          rw [headNotWs] at hd
          rw [Bool.and_eq_true]
          constructor
          · simp [Bool.not_eq_true'] at hd ⊢
            simp [hd]
          · rw [← hrest]
            exact ih true
    · rename_i hc
      cases hrest : collapseWsAux false rest with
      | nil => rfl
      | cons d rest2 =>
        rw [noTwoSpaces, Bool.and_eq_true]
        constructor
        · simp [hc]
        · rw [← hrest]
          exact ih false

lemma noTwoSpaces_append_right :
    ∀ {a b : List Char}, noTwoSpaces (a ++ b) = true → noTwoSpaces b = true := by
  intro a
  induction a with
  | nil => intro b h; exact h
  | cons c rest ih =>
    intro b h
    rw [List.cons_append] at h
    exact ih (noTwoSpaces_tail h)

lemma noTwoSpaces_append_left :
    ∀ {a b : List Char}, noTwoSpaces (a ++ b) = true → noTwoSpaces a = true := by
  intro a
  induction a with
  | nil => intro b _; rfl
  | cons c rest ih =>
    intro b h
    rw [List.cons_append] at h
    cases rest with
    | nil => rfl
    | cons d rest2 =>
      rw [List.cons_append] at h
      rw [noTwoSpaces] at h ⊢
      rw [Bool.and_eq_true] at h ⊢
      refine ⟨h.1, ?_⟩
      exact ih (by rw [List.cons_append]; exact h.2)

/-- When the head is not whitespace (or the list is empty), the in-run and
out-of-run collapse passes agree. -/
lemma collapseAux_true_eq_false :
    ∀ (l : List Char), headNotWs l = true →
      collapseWsAux true l = collapseWsAux false l := by
  intro l hl
  cases l with
  | nil => rfl
  | cons c rest =>
    rw [headNotWs] at hl
    rw [collapseWsAux, collapseWsAux]
    rw [if_neg (by simpa using hl), if_neg (by simpa using hl)]

/-- Text whose whitespace is single spaces only is a fixed point of the
collapse pass. -/
lemma collapse_fixed :
    ∀ (l : List Char),
      (∀ c ∈ l, pyIsSpace c = true → c = ' ') →
      noTwoSpaces l = true →
      collapseWsAux false l = l := by
  intro l
  induction l with
  | nil => intro _ _; rfl
  | cons c rest ih =>
    intro hws hnts
    rw [collapseWsAux]
    split
    · rename_i hc
      rw [if_neg Bool.false_ne_true]
      have hcs : c = ' ' := hws c (List.mem_cons_self _ _) hc
      have hrest : headNotWs rest = true := by
        cases rest with
        | nil => rfl
        | cons d rest2 =>
          rw [noTwoSpaces, Bool.and_eq_true] at hnts
          rw [headNotWs]
          have := hnts.1
          simp only [hc, Bool.true_and, Bool.not_eq_true'] at this
          simp [this]
      rw [collapseAux_true_eq_false rest hrest]
      rw [ih (fun d hd => hws d (List.mem_cons_of_mem _ hd)) (noTwoSpaces_tail hnts)]
      rw [hcs]
    · rw [ih (fun d hd => hws d (List.mem_cons_of_mem _ hd)) (noTwoSpaces_tail hnts)]

lemma startsWithL_append {t : List Char} :
    ∀ {p s : List Char}, startsWithL s p = true → startsWithL (s ++ t) p = true := by
  intro p
  induction p with
  | nil => intro s _; cases s ++ t <;> rfl
  | cons q p' ih =>
    intro s h
    cases s with
    | nil => rw [startsWithL] at h; cases h
    | cons c s' =>
      rw [startsWithL, Bool.and_eq_true] at h
      rw [List.cons_append, startsWithL, Bool.and_eq_true]
      exact ⟨h.1, ih h.2⟩

lemma containsSub_append_right (a : List Char) {b p : List Char}
    (h : containsSub b p = true) : containsSub (a ++ b) p = true := by
  induction a with
  | nil => exact h
  | cons c rest ih =>
    rw [List.cons_append, containsSub, Bool.or_eq_true]
    exact Or.inr ih

lemma containsSub_nil_needle : ∀ (hay : List Char), containsSub hay [] = true := by
  intro hay
  cases hay <;> rfl

lemma containsSub_append_left {p : List Char} (b : List Char) :
    ∀ {a : List Char}, containsSub a p = true → containsSub (a ++ b) p = true := by
  intro a
  induction a with
  | nil =>
    intro h
    rw [containsSub] at h
    rw [List.nil_append]
    rw [List.isEmpty_iff.mp h]
    exact containsSub_nil_needle b
  | cons c rest ih =>
    intro h
    rw [containsSub, Bool.or_eq_true] at h
    rw [List.cons_append, containsSub, Bool.or_eq_true]
    rcases h with h | h
    · exact Or.inl (by rw [← List.cons_append]; exact startsWithL_append h)
    · exact Or.inr (ih h)

lemma containsSub_strip {p : Char → Bool} {l q : List Char}
    (h : containsSub (stripBoth p l) q = true) : containsSub l q = true := by
  unfold stripBoth at h
  rcases dropTrail_prefix p (l.dropWhile p) with ⟨m, hm⟩
  have h2 : containsSub (l.dropWhile p) q = true := by
    rw [hm]
    exact containsSub_append_left m h
  rw [← List.takeWhile_append_dropWhile (p := p) (l := l)]
  exact containsSub_append_right _ h2

/-- A prefix match survives the replacement pass backwards, for patterns
containing no space. -/
lemma replaceMoj_startsWith :
    ∀ (n : Nat) (l p : List Char), l.length ≤ n → (' ' ∉ p) →
      startsWithL (replaceMoj l) p = true →
      startsWithL l p = true ∨ p = [] := by
  intro n
  induction n with
  | zero =>
    intro l p hl _ hs
    rw [List.length_eq_zero.mp (Nat.le_zero.mp hl)] at hs ⊢
    cases p with
    | nil => exact Or.inr rfl
    | cons q p' => rw [replaceMoj] at hs; cases hs
  | succ k ih =>
    intro l p hl hsp hs
    rcases l with _ | ⟨c1, _ | ⟨c2, _ | ⟨c3, rest⟩⟩⟩
    · cases p with
      | nil => exact Or.inr rfl
      | cons q p' => rw [replaceMoj] at hs; cases hs
    · rw [replaceMoj] at hs; exact Or.inl hs
    · rw [replaceMoj] at hs; exact Or.inl hs
    · rw [replaceMoj] at hs
      split at hs
      · cases p with
        | nil => exact Or.inr rfl
        | cons q p' =>
          rw [startsWithL, Bool.and_eq_true] at hs
          have hq : q = ' ' := by
            have := hs.1
            simp only [beq_iff_eq] at this
            exact this.symm
          exact absurd (hq ▸ List.mem_cons_self q p') hsp
      · cases p with
        | nil => exact Or.inr rfl
        | cons q p' =>
          rw [startsWithL, Bool.and_eq_true] at hs
          rcases ih (c2 :: c3 :: rest) p' (by simp at hl ⊢; omega)
              (fun h => hsp (List.mem_cons_of_mem _ h)) hs.2 with h' | h'
          · exact Or.inl (by rw [startsWithL, Bool.and_eq_true]; exact ⟨hs.1, h'⟩)
          · subst h'
            exact Or.inl (by
              rw [startsWithL, Bool.and_eq_true]
              exact ⟨hs.1, by cases rest <;> rfl⟩)

/-- The replacement pass leaves no mojibake occurrence behind. -/
lemma replaceMoj_no_moj :
    ∀ (n : Nat) (l : List Char), l.length ≤ n →
      containsSub (replaceMoj l) MOJIBAKE = false := by
  intro n
  induction n with
  | zero =>
    intro l hl
    rw [List.length_eq_zero.mp (Nat.le_zero.mp hl)]
    rfl
  | succ k ih =>
    intro l hl
    rcases l with _ | ⟨c1, _ | ⟨c2, _ | ⟨c3, rest⟩⟩⟩
    · rfl
    · rw [replaceMoj]
      simp [containsSub, startsWithL, MOJIBAKE]
    · rw [replaceMoj]
      simp [containsSub, startsWithL, MOJIBAKE]
    · rw [replaceMoj]
      split
      · rw [containsSub, Bool.or_eq_false_iff]
        refine ⟨?_, ih _ (by simp at hl ⊢; omega)⟩
        rw [show MOJIBAKE = Char.ofNat 0xe2 :: [Char.ofNat 0x80, Char.ofNat 0x86] from rfl]
        rw [startsWithL]
        simp
      · rename_i hcond
        rw [containsSub, Bool.or_eq_false_iff]
        refine ⟨?_, ih _ (by simp at hl ⊢; omega)⟩
        cases hsw : startsWithL (c1 :: replaceMoj (c2 :: c3 :: rest)) MOJIBAKE
        · rfl
        · exfalso
          rw [show MOJIBAKE = Char.ofNat 0xe2 :: [Char.ofNat 0x80, Char.ofNat 0x86] from rfl,
            startsWithL, Bool.and_eq_true] at hsw
          rcases replaceMoj_startsWith (k + 1) (c2 :: c3 :: rest)
              [Char.ofNat 0x80, Char.ofNat 0x86] (by simp at hl ⊢; omega)
              (by decide) hsw.2 with h' | h'
          · rw [startsWithL, Bool.and_eq_true] at h'
            obtain ⟨h1, h2⟩ := h'
            rw [startsWithL, Bool.and_eq_true] at h2
            exact hcond ⟨by simpa using hsw.1, by simpa using h1,
              by simpa using h2.1⟩
          · cases h'

/-- Mojibake-free text is a fixed point of the replacement pass. -/
lemma replaceMoj_id :
    ∀ (n : Nat) (l : List Char), l.length ≤ n →
      containsSub l MOJIBAKE = false → replaceMoj l = l := by
  intro n
  induction n with
  | zero =>
    intro l hl _
    rw [List.length_eq_zero.mp (Nat.le_zero.mp hl)]
    rfl
  | succ k ih =>
    intro l hl h
    rcases l with _ | ⟨c1, _ | ⟨c2, _ | ⟨c3, rest⟩⟩⟩
    · rfl
    · rfl
    · rfl
    · rw [containsSub, Bool.or_eq_false_iff] at h
      rw [replaceMoj]
      split
      · rename_i hcond
        exfalso
        have : startsWithL (c1 :: c2 :: c3 :: rest) MOJIBAKE = true := by
          rw [show MOJIBAKE =
            Char.ofNat 0xe2 :: [Char.ofNat 0x80, Char.ofNat 0x86] from rfl]
          rw [startsWithL, Bool.and_eq_true]
          refine ⟨by simp [hcond.1], ?_⟩
          rw [startsWithL, Bool.and_eq_true]
          refine ⟨by simp [hcond.2.1], ?_⟩
          rw [startsWithL, Bool.and_eq_true]
          exact ⟨by simp [hcond.2.2], by cases rest <;> rfl⟩
        rw [this] at h
        cases h.1
      · rw [ih (c2 :: c3 :: rest) (by simp at hl ⊢; omega) h.2]

/-- A prefix match on collapsed text lifts back to the original, for space-free
patterns. -/
lemma collapseAux_false_startsWith :
    ∀ (l p : List Char), (∀ c ∈ p, pyIsSpace c = false) →
      startsWithL (collapseWsAux false l) p = true →
      startsWithL l p = true ∨ p = [] := by
  intro l
  induction l with
  | nil =>
    intro p _ hs
    cases p with
    | nil => exact Or.inr rfl
    | cons q p' => rw [collapseWsAux] at hs; cases hs
  | cons d r ih =>
    intro p hp hs
    rw [collapseWsAux] at hs
    split at hs
    · rw [if_neg Bool.false_ne_true] at hs
      cases p with
      | nil => exact Or.inr rfl
      | cons q p' =>
        rw [startsWithL, Bool.and_eq_true] at hs
        have hq : q = ' ' := by
          have := hs.1
          simp only [beq_iff_eq] at this
          exact this.symm
        have := hp q (List.mem_cons_self _ _)
        rw [hq] at this
        simp [pyIsSpace] at this
    · cases p with
      | nil => exact Or.inr rfl
      | cons q p' =>
        rw [startsWithL, Bool.and_eq_true] at hs
        rcases ih p' (fun c hc => hp c (List.mem_cons_of_mem _ hc)) hs.2 with h' | h'
        · exact Or.inl (by rw [startsWithL, Bool.and_eq_true]; exact ⟨hs.1, h'⟩)
        · subst h'
          exact Or.inl (by
            rw [startsWithL, Bool.and_eq_true]
            exact ⟨hs.1, by cases r <;> rfl⟩)

/-- The collapse pass cannot create a mojibake occurrence. -/
lemma collapseAux_no_moj :
    ∀ (l : List Char) (b : Bool), containsSub l MOJIBAKE = false →
      containsSub (collapseWsAux b l) MOJIBAKE = false := by
  intro l
  induction l with
  | nil => intro b _; cases b <;> rfl
  | cons c rest ih =>
    intro b h
    rw [containsSub, Bool.or_eq_false_iff] at h
    rw [collapseWsAux]
    split
    · split
      · exact ih true h.2
      · rw [containsSub, Bool.or_eq_false_iff]
        refine ⟨?_, ih true h.2⟩
        rw [show MOJIBAKE =
          Char.ofNat 0xe2 :: [Char.ofNat 0x80, Char.ofNat 0x86] from rfl]
        rw [startsWithL]
        simp
    · rw [containsSub, Bool.or_eq_false_iff]
      refine ⟨?_, ih false h.2⟩
      cases hsw : startsWithL (c :: collapseWsAux false rest) MOJIBAKE
      · rfl
      · exfalso
        rw [show MOJIBAKE =
          Char.ofNat 0xe2 :: [Char.ofNat 0x80, Char.ofNat 0x86] from rfl,
          startsWithL, Bool.and_eq_true] at hsw
        rcases collapseAux_false_startsWith rest
            [Char.ofNat 0x80, Char.ofNat 0x86] (by decide) hsw.2 with h' | h'
        · have : startsWithL (c :: rest) MOJIBAKE = true := by
            rw [show MOJIBAKE =
              Char.ofNat 0xe2 :: [Char.ofNat 0x80, Char.ofNat 0x86] from rfl,
              startsWithL, Bool.and_eq_true]
            exact ⟨hsw.1, h'⟩
          rw [this] at h
          cases h.1
        · cases h'

lemma splitLines_no_newline :
    ∀ (l : List Char), '\n' ∉ l → splitLines l = [l] := by
  intro l
  induction l with
  | nil => intro _; rfl
  | cons c rest ih =>
    intro h
    rw [splitLines]
    rw [if_neg (fun hc => h (by rw [← hc]; exact List.mem_cons_self _ _))]
    rw [ih (fun hc => h (List.mem_cons_of_mem _ hc))]

lemma cutLine_id :
    ∀ (l : List Char), containsSub (l.map asciiLower) HIDE_PHRASE = false →
      cutLine l = l := by
  intro l
  induction l with
  | nil => intro _; rfl
  | cons c rest ih =>
    intro h
    rw [List.map_cons, containsSub, Bool.or_eq_false_iff] at h
    rw [cutLine]
    rw [if_neg (by rw [List.map_cons]; simp [h.1])]
    rw [ih h.2]

lemma intercalate_single (x : List Char) : List.intercalate ['\n'] [x] = x := by
  simp [List.intercalate]

/-- C9 counterexample: cleaning `"Hide/Reveal\nDescription x"` once collapses
the newline, creating the phrase that the second pass then removes — cleaning
twice is not cleaning once. -/
theorem C9_counterexample :
    clean_text (clean_text "Hide/Reveal\nDescription x") ≠
      clean_text "Hide/Reveal\nDescription x" ∧
    clean_text "Hide/Reveal\nDescription x" = "Hide/Reveal Description x" ∧
    clean_text "Hide/Reveal Description x" = "" :=
  ⟨by decide, by decide, by decide⟩

/-- C9 (amended): `_clean_text` is idempotent on every input whose cleaned
form is a fixed point of the encoding-repair step and contains no
case-insensitive occurrence of the hide/reveal phrase.  (The whitespace
collapse, strip, and mojibake replacement are idempotent unconditionally;
the counterexample shows the two hypotheses are necessary.) -/
theorem C9_clean_text_conditional_idempotence :
    ∀ s : String,
      fixEncoding (clean_text s) = clean_text s →
      containsSub ((clean_text s).data.map asciiLower) HIDE_PHRASE = false →
      clean_text (clean_text s) = clean_text s := by
  intro s hfix hphrase
  set t := clean_text s with ht
  obtain ⟨v, hv⟩ : ∃ v, t.data = stripBoth pyIsSpace (collapseWs (replaceMoj v)) :=
    ⟨_, rfl⟩
  have hws : ∀ c ∈ t.data, pyIsSpace c = true → c = ' ' := by
    rw [hv]
    intro c hc hcws
    exact collapseAux_ws_space _ false c (mem_stripBoth hc) hcws
  have hnts : noTwoSpaces t.data = true := by
    rw [hv]
    unfold stripBoth
    rcases dropTrail_prefix pyIsSpace
      ((collapseWs (replaceMoj v)).dropWhile pyIsSpace) with ⟨m, hm⟩
    have h0 : noTwoSpaces (collapseWs (replaceMoj v)) = true :=
      collapseAux_noTwoSpaces _ false
    rw [← List.takeWhile_append_dropWhile (p := pyIsSpace)
      (l := collapseWs (replaceMoj v))] at h0
    have h1 := noTwoSpaces_append_right h0
    rw [hm] at h1
    exact noTwoSpaces_append_left h1
  have hnomoj : containsSub t.data MOJIBAKE = false := by
    rw [hv]
    cases hcs : containsSub
        (stripBoth pyIsSpace (collapseWs (replaceMoj v))) MOJIBAKE
    · rfl
    · exfalso
      have h2 := containsSub_strip hcs
      have h3 : containsSub (collapseWs (replaceMoj v)) MOJIBAKE = false :=
        collapseAux_no_moj (replaceMoj v) false
          (replaceMoj_no_moj v.length v (le_refl _))
      rw [h2] at h3
      cases h3
  have hnl : '\n' ∉ t.data := by
    intro hmem
    have := hws '\n' hmem (by decide)
    exact absurd this (by decide)
  have hlhs : clean_text t = ⟨stripBoth pyIsSpace (collapseWs (replaceMoj
      (List.intercalate ['\n']
        ((splitLines (fixEncoding t).data).map cutLine))))⟩ := rfl
  rw [hlhs, hfix]
  rw [splitLines_no_newline t.data hnl]
  rw [List.map_cons, List.map_nil]
  rw [cutLine_id t.data hphrase]
  rw [intercalate_single]
  rw [replaceMoj_id t.data.length t.data (le_refl _) hnomoj]
  have hcol : collapseWs t.data = t.data := collapse_fixed t.data hws hnts
  rw [hcol, hv, stripBoth_idem, ← hv]

/-- Witness for C9 (amended) at a concrete messy-whitespace input. -/
theorem C9_clean_text_conditional_idempotence_witness :
    clean_text (clean_text "  a   b  c ") = clean_text "  a   b  c " :=
  C9_clean_text_conditional_idempotence "  a   b  c " (by decide) (by decide)

end MOQS
